import Mathlib

/-!
Timer queue and task registry of `src/interval.cpp`.

Shallow embedding of the three classes of the file:

* `Task`        a callable together with the time point at which it is due;
* `EventLoop`   a `std::priority_queue<Task>` and the `running` flag, with the body of one
                iteration of `run()`;
* `TaskManager` the event loop, the `recurring_tasks` map and the `next_task_id` counter.

Time points of `std::chrono::steady_clock` are integers counting clock ticks (nanoseconds).
A `std::function<void()>` is opaque to the scheduler, which only ever calls it; it is
represented by a label and by what a call does as far as the loop can observe (return, throw
a `std::exception`, throw something else).  Everything an operation does besides changing the
state (calling a task, sleeping, writing to `std::cerr`) is returned as a list of `Event`s.
The mutex serialises the accesses to the queue, so an execution is a sequence of whole
operations.
-/

namespace Interval

/-! ## Task -/

/-- Result of calling a `std::function<void()>`, as the `try` block of `run()` sees it. -/
inductive Outcome where
  | returns
  | throwsException (what : String)
  | throwsOther
  deriving DecidableEq

/-- A `std::function<void()>`: a label identifying the callable and the outcome of calling it. -/
structure Func where
  label : Nat
  outcome : Outcome
  deriving DecidableEq

/-- Number of `steady_clock` ticks in one millisecond (the clock counts nanoseconds). -/
def ticksPerMillisecond : Int := 1000000

/-- The duration `std::chrono::milliseconds(n)` converted to clock ticks. -/
def milliseconds (n : Int) : Int := n * ticksPerMillisecond

/-- The class `Task`: `func` and `time`. -/
structure Task where
  func : Func
  time : Int
  deriving DecidableEq

/-- Comparison `Task::operator<`, which is `return time > other.time;`. -/
def Task.lt (a other : Task) : Bool := decide (a.time > other.time)

/-! ## `std::priority_queue<Task>`

The container adaptor keeps its elements in a vector `c` arranged as a binary heap with respect
to `operator<`: `top()` is `c.front()`, `push(x)` is `c.push_back(x)` followed by
`std::push_heap`, and `pop()` is `std::pop_heap` followed by `c.pop_back()`.  The vector is a
`List Task`; the parent of position `i > 0` is `(i - 1) / 2`.  The two heap algorithms are the
usual ones: `push_heap` sifts the last element up, `pop_heap` exchanges the first element with
the last one and sifts the new first element down in the range without the last position.
Which of several tasks with the same due time ends up first is left open by the library; the
statements below do not depend on it. -/

/-- Exchange the elements at positions `i` and `j` (`std::iter_swap`). -/
def swap (xs : List Task) (i j : Nat) : List Task :=
  match xs[i]?, xs[j]? with
  | some a, some b => (xs.set i b).set j a
  | _, _ => xs

/-- Move the element at position `i` towards the root while its parent compares less than it.
The first argument bounds the number of moves; `i` moves suffice. -/
def siftUp : Nat → List Task → Nat → List Task
  | 0, xs, _ => xs
  | fuel + 1, xs, i =>
    if i = 0 then xs
    else
      match xs[(i - 1) / 2]?, xs[i]? with
      | some p, some x =>
        if Task.lt p x then siftUp fuel (swap xs i ((i - 1) / 2)) ((i - 1) / 2) else xs
      | _, _ => xs

/-- Algorithm `std::push_heap` on the whole vector: the last element is sifted up. -/
def push_heap (xs : List Task) : List Task :=
  siftUp xs.length xs (xs.length - 1)

/-- The child of `i` inside the range `[0, n)` that does not compare less than the other one,
if `i` has a child there. -/
def largerChild (xs : List Task) (n i : Nat) : Option Nat :=
  if 2 * i + 2 < n then
    match xs[2 * i + 1]?, xs[2 * i + 2]? with
    | some l, some r => if Task.lt l r then some (2 * i + 2) else some (2 * i + 1)
    | _, _ => none
  else if 2 * i + 1 < n then some (2 * i + 1)
  else none

/-- Move the element at position `i` towards the leaves of the heap `[0, n)` while it compares
less than its larger child.  The first argument bounds the number of moves; `n - i` suffice. -/
def siftDown : Nat → List Task → Nat → Nat → List Task
  | 0, xs, _, _ => xs
  | fuel + 1, xs, n, i =>
    match largerChild xs n i with
    | none => xs
    | some c =>
      match xs[i]?, xs[c]? with
      | some x, some y => if Task.lt x y then siftDown fuel (swap xs i c) n c else xs
      | _, _ => xs

/-- Algorithm `std::pop_heap` on the whole vector: the first element is exchanged with the last one and
the range without the last position is made a heap again. -/
def pop_heap (xs : List Task) : List Task :=
  siftDown (xs.length - 1) (swap xs 0 (xs.length - 1)) (xs.length - 1) 0

/-- Member `priority_queue::push`. -/
def push (xs : List Task) (x : Task) : List Task := push_heap (xs ++ [x])

/-- Member `priority_queue::pop`. -/
def pop (xs : List Task) : List Task := (pop_heap xs).dropLast

/-- Member `priority_queue::top`, which is `c.front()`; `none` on an empty queue. -/
def top (xs : List Task) : Option Task := xs.head?

/-! ## EventLoop -/

/-- What an operation does besides changing the state. -/
inductive Event where
  | call (task : Task)
  | sleep_for (ticks : Int)
  | cerr (line : String)
  deriving DecidableEq

/-- The class `EventLoop` (the mutex only serialises access and carries no data). -/
structure EventLoop where
  task_queue : List Task
  running : Bool
  deriving DecidableEq

/-- Constructor of `EventLoop`: the queue is empty and `running` is `true`. -/
def EventLoop.new : EventLoop := { task_queue := [], running := true }

/-- Method `EventLoop::add_task`. -/
def EventLoop.add_task (el : EventLoop) (task : Task) : EventLoop :=
  { el with task_queue := push el.task_queue task }

/-- Method `EventLoop::stop`. -/
def EventLoop.stop (el : EventLoop) : EventLoop := { el with running := false }

/-- The events of `task.func()` inside the `try` block, with the handler that catches what the
call throws. -/
def invoke (task : Task) : List Event :=
  match task.func.outcome with
  | Outcome.returns => [Event.call task]
  | Outcome.throwsException what => [Event.call task, Event.cerr ("Error: " ++ what)]
  | Outcome.throwsOther => [Event.call task, Event.cerr ("Unknown error")]

/-- The body of the `while (running)` loop of `EventLoop::run`, where `now` is the value that
`steady_clock::now()` returns in this iteration. -/
def EventLoop.iteration (el : EventLoop) (now : Int) : EventLoop × List Event :=
  match top el.task_queue with
  | some task =>
    if now ≥ task.time then
      ({ el with task_queue := pop el.task_queue }, invoke task)
    else
      (el, [Event.sleep_for (task.time - now)])
  | none => (el, [Event.sleep_for (milliseconds 100)])

/-- One pass through `while (running) { ... }`: the body runs if the flag is set. -/
def EventLoop.step (el : EventLoop) (now : Int) : EventLoop × List Event :=
  if el.running then el.iteration now else (el, [])

/-- The first iterations of `EventLoop::run`, one for each clock reading of the list. -/
def EventLoop.run : EventLoop → List Int → EventLoop × List Event
  | el, [] => (el, [])
  | el, now :: clock =>
    let first := el.step now
    let rest := EventLoop.run first.1 clock
    (rest.1, first.2 ++ rest.2)

/-- The tasks whose `func` was called, in the order of the calls. -/
def invoked : List Event → List Task
  | [] => []
  | Event.call task :: es => task :: invoked es
  | _ :: es => invoked es

/-! ## TaskManager -/

/-- The 32-bit two's complement value congruent to `n`; it is `n` itself whenever `n` fits an
`int`.  It stands for the counter after `next_task_id++`.  When the counter holds 2147483647
the increment overflows, which C++ leaves undefined: `TaskManager.set_interval_checked` marks
that call, and the value taken here carries no guarantee of the language. -/
def wrapInt (n : Int) : Int := (n + 2147483648) % 4294967296 - 2147483648

/-- Container `std::unordered_map<int, Task>` as an association list with one entry for each key. -/
abbrev Registry := List (Int × Task)

/-- Lookup `unordered_map::find`. -/
def Registry.find (r : Registry) (key : Int) : Option Task :=
  match r with
  | [] => none
  | (k, v) :: rest => if k = key then some v else Registry.find rest key

/-- Removal `unordered_map::erase(key)`. -/
def Registry.erase (r : Registry) (key : Int) : Registry :=
  match r with
  | [] => []
  | (k, v) :: rest =>
    if k = key then Registry.erase rest key else (k, v) :: Registry.erase rest key

/-- Assignment `m[key] = value`: the entry for `key` is created or overwritten. -/
def Registry.assign (r : Registry) (key : Int) (value : Task) : Registry :=
  (key, value) :: Registry.erase r key

/-- The class `TaskManager`. -/
structure TaskManager where
  event_loop : EventLoop
  recurring_tasks : Registry
  next_task_id : Int
  deriving DecidableEq

/-- Constructor of `TaskManager`: nothing is scheduled and `next_task_id` is 0. -/
def TaskManager.new : TaskManager :=
  { event_loop := EventLoop.new, recurring_tasks := [], next_task_id := 0 }

/-- Method `TaskManager::set_interval`, called when the clock reads `now`: the returned identifier,
the new state and the events of the call. -/
def TaskManager.set_interval (tm : TaskManager) (func : Func) (interval : Int) (now : Int) :
    Int × TaskManager × List Event :=
  let task_id := tm.next_task_id
  let time := now + milliseconds interval
  let task : Task := { func := func, time := time }
  (task_id,
   { event_loop := tm.event_loop.add_task task
     recurring_tasks := Registry.assign tm.recurring_tasks task_id task
     next_task_id := wrapInt (tm.next_task_id + 1) },
   [])

/-- Method `TaskManager::clear_interval`. -/
def TaskManager.clear_interval (tm : TaskManager) (task_id : Int) : TaskManager × List Event :=
  ({ tm with recurring_tasks := Registry.erase tm.recurring_tasks task_id }, [])

/-- Method `TaskManager::set_timeout`, called when the clock reads `now`. -/
def TaskManager.set_timeout (tm : TaskManager) (func : Func) (timeout : Int) (now : Int) :
    TaskManager × List Event :=
  let time := now + milliseconds timeout
  let task : Task := { func := func, time := time }
  ({ tm with event_loop := tm.event_loop.add_task task }, [])

/-! ## Sequences of operations -/

/-- The queues that `add_task` and `pop` can produce from the empty queue. -/
inductive Reachable : List Task → Prop where
  | empty : Reachable []
  | add_task {q : List Task} (task : Task) : Reachable q → Reachable (push q task)
  | pop {q : List Task} : Reachable q → Reachable (pop q)

/-- What happens to an event loop: a caller thread adds a task, or the loop thread makes one
pass through its loop while the clock reads `now`. -/
inductive Op where
  | add_task (task : Task)
  | iterate (now : Int)
  deriving DecidableEq

/-- An interleaving of `add_task` calls and loop iterations, serialised by the mutex. -/
def EventLoop.exec : EventLoop → List Op → EventLoop × List Event
  | el, [] => (el, [])
  | el, Op.add_task task :: ops => EventLoop.exec (el.add_task task) ops
  | el, Op.iterate now :: ops =>
    let first := el.step now
    let rest := EventLoop.exec first.1 ops
    (rest.1, first.2 ++ rest.2)

/-- The tasks that the `add_task` calls of an interleaving enqueue. -/
def enqueued : List Op → List Task
  | [] => []
  | Op.add_task task :: ops => task :: enqueued ops
  | Op.iterate _ :: ops => enqueued ops

/-- A call of one of the three public operations of the task manager. -/
inductive Call where
  | set_interval (func : Func) (interval : Int) (now : Int)
  | set_timeout (func : Func) (timeout : Int) (now : Int)
  | clear_interval (task_id : Int)
  deriving DecidableEq

/-- A sequence of calls: the final state and the identifiers that the `set_interval` calls
returned, in the order of the calls. -/
def TaskManager.perform : TaskManager → List Call → TaskManager × List Int
  | tm, [] => (tm, [])
  | tm, Call.set_interval func interval now :: calls =>
    let r := tm.set_interval func interval now
    let rest := TaskManager.perform r.2.1 calls
    (rest.1, r.1 :: rest.2)
  | tm, Call.set_timeout func timeout now :: calls =>
    TaskManager.perform (tm.set_timeout func timeout now).1 calls
  | tm, Call.clear_interval task_id :: calls =>
    TaskManager.perform (tm.clear_interval task_id).1 calls

/-- Number of `set_interval` calls in a sequence of calls. -/
def registrations : List Call → Nat
  | [] => 0
  | Call.set_interval _ _ _ :: calls => registrations calls + 1
  | _ :: calls => registrations calls

/-- What executing a function body gives: the value it returns, or `undefined` when the body
executes an operation whose behaviour C++ does not define. -/
inductive Execution (α : Type) where
  | returns (value : α)
  | undefined
  deriving DecidableEq

/-- The body of `TaskManager::set_interval` with the overflow of `int task_id = next_task_id++`
made explicit: the body has no check before the increment, and incrementing an `int` that holds
2147483647 is undefined behaviour; in every other state the call returns what
`TaskManager.set_interval` gives. -/
def TaskManager.set_interval_checked (tm : TaskManager) (func : Func) (interval : Int)
    (now : Int) : Execution (Int × TaskManager × List Event) :=
  if tm.next_task_id + 1 ≤ 2147483647 then Execution.returns (tm.set_interval func interval now)
  else Execution.undefined

/-- A sequence of calls as in `TaskManager.perform`, undefined as soon as one of its calls
is. -/
def TaskManager.perform_checked : TaskManager → List Call → Execution (TaskManager × List Int)
  | tm, [] => Execution.returns (tm, [])
  | tm, Call.set_interval func interval now :: calls =>
    match tm.set_interval_checked func interval now with
    | Execution.undefined => Execution.undefined
    | Execution.returns r =>
      match TaskManager.perform_checked r.2.1 calls with
      | Execution.undefined => Execution.undefined
      | Execution.returns rest => Execution.returns (rest.1, r.1 :: rest.2)
  | tm, Call.set_timeout func timeout now :: calls =>
    TaskManager.perform_checked (tm.set_timeout func timeout now).1 calls
  | tm, Call.clear_interval task_id :: calls =>
    TaskManager.perform_checked (tm.clear_interval task_id).1 calls

/-- The loop thread makes one pass through the loop of `event_loop.run()`; the loop has no
access to the other members of the task manager. -/
def TaskManager.iterate (tm : TaskManager) (now : Int) : TaskManager × List Event :=
  ({ tm with event_loop := (tm.event_loop.step now).1 }, (tm.event_loop.step now).2)

/-- The state and the events of one call of a public operation. -/
def TaskManager.call (tm : TaskManager) : Call → TaskManager × List Event
  | Call.set_interval func interval now =>
    ((tm.set_interval func interval now).2.1, (tm.set_interval func interval now).2.2)
  | Call.set_timeout func timeout now => tm.set_timeout func timeout now
  | Call.clear_interval task_id => tm.clear_interval task_id

/-- What happens to a task manager: a caller thread calls a public operation, or the loop
thread makes one pass through its loop while the clock reads `now`. -/
inductive Step where
  | call (c : Call)
  | iterate (now : Int)
  deriving DecidableEq

/-- An interleaving of calls of the public operations and passes of the loop. -/
def TaskManager.exec : TaskManager → List Step → TaskManager × List Event
  | tm, [] => (tm, [])
  | tm, Step.call c :: steps =>
    let first := tm.call c
    let rest := TaskManager.exec first.1 steps
    (rest.1, first.2 ++ rest.2)
  | tm, Step.iterate now :: steps =>
    let first := tm.iterate now
    let rest := TaskManager.exec first.1 steps
    (rest.1, first.2 ++ rest.2)

/-- The tasks that the calls of an interleaving hand to `add_task`. -/
def registered : List Step → List Task
  | [] => []
  | Step.call (Call.set_interval func interval now) :: steps =>
    ⟨func, now + milliseconds interval⟩ :: registered steps
  | Step.call (Call.set_timeout func timeout now) :: steps =>
    ⟨func, now + milliseconds timeout⟩ :: registered steps
  | _ :: steps => registered steps

/-- The task with the same due time and label whose action returns normally. -/
def Task.returning (t : Task) : Task :=
  { t with func := { t.func with outcome := Outcome.returns } }

/-! ## Heap order on the due times at the positions of a vector -/

/-- The due time stored at a position of the vector (`0` outside the vector). -/
def timeAt (xs : List Task) (i : Nat) : Int :=
  match xs[i]? with
  | some t => t.time
  | none => 0

/-- The readings `A` with the values at positions `i` and `j` exchanged. -/
def exch (A : Nat → Int) (i j : Nat) : Nat → Int :=
  fun k => if k = j then A i else if k = i then A j else A k

/-- In the range `[0, n)` no position is due before its parent. -/
def HeapOn (A : Nat → Int) (n : Nat) : Prop :=
  ∀ j, 0 < j → j < n → A ((j - 1) / 2) ≤ A j

/-- Heap order in `[0, n)` except that position `i` may be due before its parent. -/
def UpInv (A : Nat → Int) (n i : Nat) : Prop :=
  (∀ j, 0 < j → j < n → j ≠ i → A ((j - 1) / 2) ≤ A j) ∧
  (∀ j, 0 < j → j < n → (j - 1) / 2 = i → 0 < i → A ((i - 1) / 2) ≤ A j)

/-- Heap order in `[0, n)` except that the children of `i` may be due before `i`. -/
def DownInv (A : Nat → Int) (n i : Nat) : Prop :=
  (∀ j, 0 < j → j < n → (j - 1) / 2 ≠ i → A ((j - 1) / 2) ≤ A j) ∧
  (∀ j, 0 < j → j < n → (j - 1) / 2 = i → 0 < i → A ((i - 1) / 2) ≤ A j)

/-- The vector is a heap: no task is due before the task at its parent position. -/
def IsHeap (xs : List Task) : Prop := HeapOn (timeAt xs) xs.length

/-! ## The vector of the queue: exchanging two positions -/

theorem swap_eq (xs : List Task) {i j : Nat} (hi : i < xs.length) (hj : j < xs.length) :
    swap xs i j = (xs.set i xs[j]).set j xs[i] := by
  simp [swap, List.getElem?_eq_getElem hi, List.getElem?_eq_getElem hj]

theorem length_swap (xs : List Task) (i j : Nat) : (swap xs i j).length = xs.length := by
  unfold swap
  split <;> simp

theorem getElem?_swap (xs : List Task) {i j : Nat} (hi : i < xs.length) (hj : j < xs.length)
    (k : Nat) :
    (swap xs i j)[k]? = if k = j then xs[i]? else if k = i then xs[j]? else xs[k]? := by
  rw [swap_eq xs hi hj, List.getElem?_set, List.getElem?_set]
  by_cases h1 : j = k
  · subst h1
    simp [hj, List.getElem?_eq_getElem hi]
  · by_cases h2 : i = k
    · subst h2
      simp [h1, hi, List.getElem?_eq_getElem hj, Ne.symm h1]
    · simp [h1, h2, Ne.symm h1, Ne.symm h2]

theorem timeAt_swap (xs : List Task) {i j : Nat} (hi : i < xs.length) (hj : j < xs.length)
    (k : Nat) :
    timeAt (swap xs i j) k
      = if k = j then timeAt xs i else if k = i then timeAt xs j else timeAt xs k := by
  unfold timeAt
  rw [getElem?_swap xs hi hj]
  by_cases h1 : k = j
  · simp [h1]
  · by_cases h2 : k = i
    · subst h2
      simp [h1]
    · simp [h1, h2]

theorem perm_set_cons (x b : Task) :
    ∀ (xs : List Task) (j : Nat), xs[j]? = some b → (b :: xs.set j x).Perm (x :: xs)
  | [], j, h => by simp at h
  | y :: t, 0, h => by
    simp at h
    subst h
    exact List.Perm.swap x y t
  | y :: t, j + 1, h => by
    simp at h
    have ih := perm_set_cons x b t j h
    exact ((List.Perm.swap y b _).trans (ih.cons y)).trans (List.Perm.swap x y t)

theorem perm_swap : ∀ (xs : List Task) (i j : Nat), (swap xs i j).Perm xs
  | [], i, j => by simp [swap]
  | x :: t, 0, 0 => by
    simp [swap]
  | x :: t, 0, j + 1 => by
    unfold swap
    cases h : t[j]? with
    | none => simp [h]
    | some b =>
      simp [h]
      exact perm_set_cons x b t j h
  | x :: t, i + 1, 0 => by
    unfold swap
    cases h : t[i]? with
    | none => simp [h]
    | some a =>
      simp [h]
      exact perm_set_cons x a t i h
  | x :: t, i + 1, j + 1 => by
    have ih := perm_swap t i j
    unfold swap at ih ⊢
    cases hi : t[i]? with
    | none => simp [hi]
    | some a =>
      cases hj : t[j]? with
      | none => simp [hi, hj]
      | some b =>
        simp [hi, hj] at ih ⊢
        exact ih

theorem timeAt_swap_exch (xs : List Task) {i j : Nat} (hi : i < xs.length)
    (hj : j < xs.length) : timeAt (swap xs i j) = exch (timeAt xs) i j := by
  funext k
  exact timeAt_swap xs hi hj k

theorem heapOn_root_le {A : Nat → Int} {n : Nat} (h : HeapOn A n) :
    ∀ i, i < n → A 0 ≤ A i := by
  intro i
  induction i using Nat.strong_induction_on with
  | _ i ih =>
    intro hi
    by_cases h0 : i = 0
    · subst h0; exact le_refl _
    · have hp : (i - 1) / 2 < i := by omega
      exact le_trans (ih _ hp (by omega)) (h i (by omega) hi)

theorem upInv_heapOn_of_root {A : Nat → Int} {n : Nat} (h : UpInv A n 0) : HeapOn A n := by
  intro j hj hn
  exact h.1 j hj hn (by omega)

theorem upInv_heapOn_of_le {A : Nat → Int} {n i : Nat} (h : UpInv A n i)
    (hle : A ((i - 1) / 2) ≤ A i) : HeapOn A n := by
  intro j hj hn
  by_cases hji : j = i
  · subst hji; exact hle
  · exact h.1 j hj hn hji

theorem upInv_exch {A : Nat → Int} {n i : Nat} (h : UpInv A n i) (h0 : 0 < i) (hn : i < n)
    (hlt : A i < A ((i - 1) / 2)) : UpInv (exch A i ((i - 1) / 2)) n ((i - 1) / 2) := by
  have hp : (i - 1) / 2 < i := by omega
  constructor
  · intro j hj hjn hjp
    by_cases hji : j = i
    · subst hji
      have e1 : ¬ j = (j - 1) / 2 := by omega
      simp only [Interval.exch, if_true, e1, if_false]
      exact le_of_lt hlt
    · have a1 := h.1 j hj hjn hji
      have a2 := h.2 j hj hjn
      simp only [Interval.exch, hjp, hji, if_false]
      by_cases hq : (j - 1) / 2 = (i - 1) / 2
      · rw [hq] at a1
        simp only [hq, if_true]
        exact le_trans (le_of_lt hlt) a1
      · by_cases hq2 : (j - 1) / 2 = i
        · have e4 : ¬ i = (i - 1) / 2 := by omega
          simp only [hq2, e4, if_true, if_false]
          exact a2 hq2 h0
        · simp only [hq, hq2, if_false]
          exact a1
  · intro j hj hjn hjp hp0
    have b1 := h.1 ((i - 1) / 2) hp0 (by omega) (by omega)
    have e1 : ¬ ((i - 1) / 2 - 1) / 2 = (i - 1) / 2 := by omega
    have e2 : ¬ ((i - 1) / 2 - 1) / 2 = i := by omega
    have e3 : ¬ j = (i - 1) / 2 := by omega
    simp only [Interval.exch, e1, e2, e3, if_false]
    by_cases hji : j = i
    · simp only [hji, if_true]
      exact b1
    · simp only [hji, if_false]
      have a1 := h.1 j hj hjn hji
      rw [hjp] at a1
      exact le_trans b1 a1

theorem downInv_heapOn_of_le {A : Nat → Int} {n i : Nat} (h : DownInv A n i)
    (hle : ∀ j, 0 < j → j < n → (j - 1) / 2 = i → A i ≤ A j) : HeapOn A n := by
  intro j hj hn
  by_cases hq : (j - 1) / 2 = i
  · have := hle j hj hn hq
    rw [hq]; exact this
  · exact h.1 j hj hn hq

theorem downInv_exch {A : Nat → Int} {n i c : Nat} (h : DownInv A n i) (hc0 : 0 < c)
    (hcn : c < n) (hci : (c - 1) / 2 = i) (hlt : A c < A i)
    (hmin : ∀ j, 0 < j → j < n → (j - 1) / 2 = i → A c ≤ A j) :
    DownInv (exch A i c) n c := by
  have hic : i < c := by omega
  constructor
  · intro j hj hjn hq
    by_cases hjc : j = c
    · subst hjc
      have e1 : ¬ (j - 1) / 2 = j := by omega
      have e2 : ¬ i = j := by omega
      simp only [Interval.exch, e1, e2, hci, if_true, if_false]
      exact le_of_lt hlt
    · by_cases hji : j = i
      · subst hji
        have e1 : ¬ (j - 1) / 2 = c := by omega
        have e2 : ¬ (j - 1) / 2 = j := by omega
        simp only [Interval.exch, e1, e2, hjc, if_true, if_false]
        exact h.2 c hc0 hcn hci hj
      · simp only [Interval.exch, hq, hjc, hji, if_false]
        by_cases hqi : (j - 1) / 2 = i
        · simp only [hqi, if_true]
          exact hmin j hj hjn hqi
        · simp only [hqi, if_false]
          exact h.1 j hj hjn hqi
  · intro j hj hjn hq _
    have e1 : ¬ j = c := by omega
    have e2 : ¬ j = i := by omega
    have e3 : ¬ i = c := by omega
    simp only [Interval.exch, hci, e1, e2, e3, if_true, if_false]
    have a1 := h.1 j hj hjn (by omega)
    rw [hq] at a1
    exact a1

/-! ## `push_heap` and `pop_heap` keep the heap order -/

theorem timeAt_of_getElem? {xs : List Task} {i : Nat} {t : Task} (h : xs[i]? = some t) :
    timeAt xs i = t.time := by
  simp [timeAt, h]

theorem lt_iff_time (a b : Task) : Task.lt a b = true ↔ b.time < a.time := by
  simp [Task.lt]

theorem length_siftUp : ∀ (fuel : Nat) (xs : List Task) (i : Nat),
    (siftUp fuel xs i).length = xs.length
  | 0, xs, i => by simp [siftUp]
  | fuel + 1, xs, i => by
    rw [siftUp]
    split
    · rfl
    · split
      · split
        · rw [length_siftUp fuel, length_swap]
        · rfl
      · rfl

theorem perm_siftUp : ∀ (fuel : Nat) (xs : List Task) (i : Nat),
    (siftUp fuel xs i).Perm xs
  | 0, xs, i => by simp [siftUp]
  | fuel + 1, xs, i => by
    rw [siftUp]
    split
    · exact List.Perm.refl _
    · split
      · split
        · exact (perm_siftUp fuel _ _).trans (perm_swap xs _ _)
        · exact List.Perm.refl _
      · exact List.Perm.refl _

theorem siftUp_heap : ∀ (fuel : Nat) (xs : List Task) (i : Nat), i ≤ fuel → i < xs.length →
    UpInv (timeAt xs) xs.length i → HeapOn (timeAt (siftUp fuel xs i)) xs.length
  | 0, xs, i, hf, _, h => by
    have : i = 0 := by omega
    subst this
    simpa [siftUp] using upInv_heapOn_of_root h
  | fuel + 1, xs, i, hf, hi, h => by
    rw [siftUp]
    split
    · next h0 => subst h0; exact upInv_heapOn_of_root h
    · next h0 =>
      have hp : (i - 1) / 2 < i := by omega
      split
      · next p x hp' hx' =>
        have tp := timeAt_of_getElem? hp'
        have tx := timeAt_of_getElem? hx'
        split
        · next hlt =>
          rw [lt_iff_time] at hlt
          have hinv : UpInv (timeAt (swap xs i ((i - 1) / 2))) (swap xs i ((i - 1) / 2)).length
              ((i - 1) / 2) := by
            rw [length_swap, timeAt_swap_exch xs hi (by omega)]
            exact upInv_exch h (by omega) hi (by rw [tp, tx]; exact hlt)
          have := siftUp_heap fuel (swap xs i ((i - 1) / 2)) ((i - 1) / 2) (by omega)
            (by rw [length_swap]; omega) hinv
          rwa [length_swap] at this
        · next hlt =>
          rw [lt_iff_time] at hlt
          exact upInv_heapOn_of_le h (by rw [tp, tx]; exact not_lt.mp hlt)
      · next hnone =>
        exfalso
        have h1 := List.getElem?_eq_getElem (l := xs) (n := (i - 1) / 2) (by omega)
        have h2 := List.getElem?_eq_getElem hi
        exact hnone _ _ h1 h2

theorem largerChild_some {xs : List Task} {n i c : Nat} (h : largerChild xs n i = some c) :
    0 < c ∧ c < n ∧ (c - 1) / 2 = i ∧
      ∀ j, 0 < j → j < n → (j - 1) / 2 = i → timeAt xs c ≤ timeAt xs j := by
  unfold largerChild at h
  split at h
  · next h2 =>
    split at h
    · next l r hl hr =>
      have tl := timeAt_of_getElem? hl
      have tr := timeAt_of_getElem? hr
      split at h
      · next hlt =>
        rw [lt_iff_time] at hlt
        cases h
        refine ⟨by omega, by omega, by omega, ?_⟩
        intro j hj hjn hq
        have : j = 2 * i + 1 ∨ j = 2 * i + 2 := by omega
        rcases this with e | e
        · rw [e, tl, tr]; exact le_of_lt hlt
        · rw [e]
      · next hlt =>
        rw [lt_iff_time] at hlt
        cases h
        refine ⟨by omega, by omega, by omega, ?_⟩
        intro j hj hjn hq
        have : j = 2 * i + 1 ∨ j = 2 * i + 2 := by omega
        rcases this with e | e
        · rw [e]
        · rw [e, tl, tr]; exact not_lt.mp hlt
    · cases h
  · next h2 =>
    split at h
    · next h1 =>
      cases h
      refine ⟨by omega, by omega, by omega, ?_⟩
      intro j hj hjn hq
      have : j = 2 * i + 1 := by omega
      rw [this]
    · cases h

theorem largerChild_none {xs : List Task} {n i : Nat} (hn : n ≤ xs.length)
    (h : largerChild xs n i = none) : n ≤ 2 * i + 1 := by
  unfold largerChild at h
  split at h
  · next h2 =>
    split at h
    · split at h <;> cases h
    · next hnone =>
      exfalso
      have h1 := List.getElem?_eq_getElem (l := xs) (n := 2 * i + 1) (by omega)
      have h3 := List.getElem?_eq_getElem (l := xs) (n := 2 * i + 2) (by omega)
      exact hnone _ _ h1 h3
  · split at h
    · cases h
    · omega

theorem length_siftDown : ∀ (fuel : Nat) (xs : List Task) (n i : Nat),
    (siftDown fuel xs n i).length = xs.length
  | 0, xs, n, i => by simp [siftDown]
  | fuel + 1, xs, n, i => by
    rw [siftDown]
    split
    · rfl
    · split
      · split
        · rw [length_siftDown fuel, length_swap]
        · rfl
      · rfl

theorem perm_siftDown : ∀ (fuel : Nat) (xs : List Task) (n i : Nat),
    (siftDown fuel xs n i).Perm xs
  | 0, xs, n, i => by simp [siftDown]
  | fuel + 1, xs, n, i => by
    rw [siftDown]
    split
    · exact List.Perm.refl _
    · split
      · split
        · exact (perm_siftDown fuel _ _ _).trans (perm_swap xs _ _)
        · exact List.Perm.refl _
      · exact List.Perm.refl _

theorem getElem?_siftDown_of_le : ∀ (fuel : Nat) (xs : List Task) (n i k : Nat),
    n ≤ xs.length → n ≤ k → (siftDown fuel xs n i)[k]? = xs[k]?
  | 0, xs, n, i, k, _, _ => by simp [siftDown]
  | fuel + 1, xs, n, i, k, hn, hk => by
    rw [siftDown]
    split
    · rfl
    · next c hc =>
      obtain ⟨hc0, hcn, hci, _⟩ := largerChild_some hc
      split
      · split
        · rw [getElem?_siftDown_of_le fuel _ n c k (by rw [length_swap]; exact hn) hk,
            getElem?_swap xs (by omega) (by omega)]
          have e1 : ¬ k = c := by omega
          have e2 : ¬ k = i := by omega
          simp [e1, e2]
        · rfl
      · rfl

theorem siftDown_heap : ∀ (fuel : Nat) (xs : List Task) (n i : Nat), n ≤ xs.length →
    n ≤ fuel + i → DownInv (timeAt xs) n i → HeapOn (timeAt (siftDown fuel xs n i)) n
  | 0, xs, n, i, _, hf, h => by
    rw [siftDown]
    exact downInv_heapOn_of_le h (fun j hj hjn hq => by omega)
  | fuel + 1, xs, n, i, hn, hf, h => by
    rw [siftDown]
    split
    · next hnone =>
      have := largerChild_none hn hnone
      exact downInv_heapOn_of_le h (fun j hj hjn hq => by omega)
    · next c hc =>
      obtain ⟨hc0, hcn, hci, hmin⟩ := largerChild_some hc
      split
      · next x y hx' hy' =>
        have tx := timeAt_of_getElem? hx'
        have ty := timeAt_of_getElem? hy'
        split
        · next hlt =>
          rw [lt_iff_time] at hlt
          have hinv : DownInv (timeAt (swap xs i c)) n c := by
            rw [timeAt_swap_exch xs (by omega) (by omega)]
            exact downInv_exch h hc0 hcn hci (by rw [tx, ty]; exact hlt) hmin
          exact siftDown_heap fuel (swap xs i c) n c (by rw [length_swap]; exact hn)
            (by omega) hinv
        · next hlt =>
          rw [lt_iff_time] at hlt
          refine downInv_heapOn_of_le h (fun j hj hjn hq => ?_)
          have := hmin j hj hjn hq
          rw [ty] at this
          rw [tx]
          exact le_trans (not_lt.mp hlt) this
      · next hnone =>
        exfalso
        have h1 := List.getElem?_eq_getElem (l := xs) (n := i) (by omega)
        have h2 := List.getElem?_eq_getElem (l := xs) (n := c) (by omega)
        exact hnone _ _ h1 h2

/-! ## The queue operations -/

theorem timeAt_append_left (xs ys : List Task) {j : Nat} (h : j < xs.length) :
    timeAt (xs ++ ys) j = timeAt xs j := by
  simp [timeAt, List.getElem?_append_left h]

theorem timeAt_dropLast (xs : List Task) {j : Nat} (h : j < xs.length - 1) :
    timeAt xs.dropLast j = timeAt xs j := by
  unfold timeAt
  rw [List.getElem?_dropLast, if_pos h]

theorem isHeap_nil : IsHeap [] := by
  intro j _ hj
  simp at hj

theorem length_push (xs : List Task) (x : Task) : (push xs x).length = xs.length + 1 := by
  simp [push, push_heap, length_siftUp]

theorem perm_push (xs : List Task) (x : Task) : (push xs x).Perm (x :: xs) := by
  unfold push push_heap
  exact (perm_siftUp _ _ _).trans (List.perm_append_singleton x xs)

theorem isHeap_push {xs : List Task} (h : IsHeap xs) (x : Task) : IsHeap (push xs x) := by
  have hinv : UpInv (timeAt (xs ++ [x])) (xs ++ [x]).length ((xs ++ [x]).length - 1) := by
    simp only [List.length_append, List.length_singleton, Nat.add_sub_cancel]
    constructor
    · intro j hj hjn hne
      have hj' : j < xs.length := by omega
      rw [timeAt_append_left xs [x] hj', timeAt_append_left xs [x] (by omega)]
      exact h j hj hj'
    · intro j hj hjn hq
      omega
  have := siftUp_heap (xs ++ [x]).length (xs ++ [x]) ((xs ++ [x]).length - 1) (by omega)
    (by simp) hinv
  unfold IsHeap
  rw [length_push]
  simpa [push, push_heap] using this

theorem length_pop (xs : List Task) : (pop xs).length = xs.length - 1 := by
  simp [pop, pop_heap, length_siftDown, length_swap]

theorem perm_pop {xs : List Task} {h : Task} (htop : top xs = some h) :
    xs.Perm (h :: pop xs) := by
  have hlen : 0 < xs.length := by
    cases xs with
    | nil => simp [top] at htop
    | cons a t => simp
  have h0 : xs[0]? = some h := by
    rw [← List.head?_eq_getElem?]; exact htop
  have hlast : (pop_heap xs).getLast? = some h := by
    rw [List.getLast?_eq_getElem?]
    unfold pop_heap
    rw [length_siftDown, length_swap,
      getElem?_siftDown_of_le _ _ _ _ _ (by rw [length_swap]; omega) (le_refl _),
      getElem?_swap xs hlen (by omega)]
    simpa using h0
  have hsplit := List.dropLast_append_getLast? h hlast
  have hperm : (pop_heap xs).Perm xs := (perm_siftDown _ _ _ _).trans (perm_swap xs _ _)
  unfold pop
  calc xs.Perm (pop_heap xs) := hperm.symm
    _ = (pop_heap xs).dropLast ++ [h] := hsplit.symm
    _ |>.Perm (h :: (pop_heap xs).dropLast) := List.perm_append_singleton _ _

theorem isHeap_pop {xs : List Task} (h : IsHeap xs) : IsHeap (pop xs) := by
  by_cases hlen : xs.length = 0
  · have : xs = [] := List.length_eq_zero.mp hlen
    subst this
    simpa [pop, pop_heap, siftDown, swap] using isHeap_nil
  · have hinv : DownInv (timeAt (swap xs 0 (xs.length - 1))) (xs.length - 1) 0 := by
      rw [timeAt_swap_exch xs (by omega) (by omega)]
      constructor
      · intro j hj hjn hq
        have e1 : ¬ (j - 1) / 2 = xs.length - 1 := by omega
        have e2 : ¬ j = xs.length - 1 := by omega
        have e3 : ¬ j = 0 := by omega
        simp only [exch, e1, e2, e3, hq, if_false]
        exact h j hj (by omega)
      · intro j _ _ _ h0
        omega
    have hheap := siftDown_heap (xs.length - 1) (swap xs 0 (xs.length - 1)) (xs.length - 1) 0
      (by rw [length_swap]; omega) (by omega) hinv
    intro j hj hjn
    rw [length_pop] at hjn
    have hl : (pop_heap xs).length = xs.length := by
      simp [pop_heap, length_siftDown, length_swap]
    unfold pop
    rw [timeAt_dropLast _ (by rw [hl]; omega), timeAt_dropLast _ (by rw [hl]; omega)]
    exact hheap j hj hjn

theorem mem_iff_getElem? {xs : List Task} {t : Task} (h : t ∈ xs) :
    ∃ i, i < xs.length ∧ xs[i]? = some t := by
  obtain ⟨i, hi, e⟩ := List.getElem_of_mem h
  exact ⟨i, hi, by rw [List.getElem?_eq_getElem hi, e]⟩

/-- In a heap the task at the front is due no later than any task of the vector. -/
theorem isHeap_top_le {xs : List Task} (h : IsHeap xs) {hd t : Task} (htop : top xs = some hd)
    (ht : t ∈ xs) : hd.time ≤ t.time := by
  obtain ⟨i, hi, e⟩ := mem_iff_getElem? ht
  have h0 : xs[0]? = some hd := by
    rw [← List.head?_eq_getElem?]; exact htop
  have := heapOn_root_le h i hi
  rwa [timeAt_of_getElem? h0, timeAt_of_getElem? e] at this

/-! ## The loop -/

theorem reachable_isHeap {q : List Task} (h : Reachable q) : IsHeap q := by
  induction h with
  | empty => exact isHeap_nil
  | add_task task _ ih => exact isHeap_push ih task
  | pop _ ih => exact isHeap_pop ih

theorem invoked_append (a b : List Event) : invoked (a ++ b) = invoked a ++ invoked b := by
  induction a with
  | nil => rfl
  | cons e es ih => cases e <;> simp [invoked, ih]

theorem invoked_invoke (task : Task) : invoked (invoke task) = [task] := by
  unfold invoke
  split <;> simp [invoked]

theorem mem_invoked {es : List Event} {task : Task} :
    task ∈ invoked es ↔ Event.call task ∈ es := by
  induction es with
  | nil => simp [invoked]
  | cons e es ih => cases e <;> simp [invoked, ih]

theorem top_eq_none {q : List Task} (h : top q = none) : q = [] := by
  cases q with
  | nil => rfl
  | cons a t => simp [top] at h

theorem mem_of_top {q : List Task} {hd : Task} (h : top q = some hd) : hd ∈ q := by
  cases q with
  | nil => simp [top] at h
  | cons a t =>
    simp [top] at h
    simp [h]

/-- What one iteration does, by cases on the front of the queue and the clock. -/
theorem iteration_cases (el : EventLoop) (now : Int) :
    (el.task_queue = [] ∧ el.iteration now = (el, [Event.sleep_for (milliseconds 100)])) ∨
    (∃ hd, top el.task_queue = some hd ∧ hd.time ≤ now ∧
      el.iteration now = ({ el with task_queue := pop el.task_queue }, invoke hd)) ∨
    (∃ hd, top el.task_queue = some hd ∧ now < hd.time ∧
      el.iteration now = (el, [Event.sleep_for (hd.time - now)])) := by
  unfold EventLoop.iteration
  cases h : top el.task_queue with
  | none => exact Or.inl ⟨top_eq_none h, rfl⟩
  | some hd =>
    by_cases hdue : now ≥ hd.time
    · exact Or.inr (Or.inl ⟨hd, rfl, hdue, by simp [hdue]⟩)
    · exact Or.inr (Or.inr ⟨hd, rfl, not_le.mp hdue, by simp [hdue]⟩)

/-- One pass of the loop keeps the heap order, the tasks it calls together with the tasks it
leaves in the queue are the tasks that were in the queue, and it calls at most one task: the
front of the queue, when that is due. -/
theorem step_spec (el : EventLoop) (now : Int) :
    (el.step now).1.running = el.running ∧
    (invoked (el.step now).2 ++ (el.step now).1.task_queue).Perm el.task_queue ∧
    (IsHeap el.task_queue → IsHeap (el.step now).1.task_queue) ∧
    (invoked (el.step now).2 = [] ∨
      ∃ hd, invoked (el.step now).2 = [hd] ∧ top el.task_queue = some hd ∧ hd.time ≤ now) := by
  unfold EventLoop.step
  by_cases hr : el.running = true
  · rw [if_pos hr]
    rcases iteration_cases el now with ⟨_, e⟩ | ⟨hd, htop, hdue, e⟩ | ⟨hd, _, _, e⟩
    · rw [e]; simp [invoked]
    · rw [e, invoked_invoke]
      exact ⟨rfl, (perm_pop htop).symm, fun h => isHeap_pop h, Or.inr ⟨hd, rfl, htop, hdue⟩⟩
    · rw [e]; simp [invoked]
  · rw [if_neg hr]; simp [invoked]

/-! ## The registry and the identifier counter -/

theorem erase_of_find_none : ∀ (r : Registry) (key : Int),
    Registry.find r key = none → Registry.erase r key = r
  | [], _, _ => rfl
  | (k, v) :: rest, key, h => by
    unfold Registry.find at h
    by_cases hk : k = key
    · simp [hk] at h
    · simp only [hk, if_false] at h
      simp [Registry.erase, hk, erase_of_find_none rest key h]

theorem find_erase_self : ∀ (r : Registry) (key : Int),
    Registry.find (Registry.erase r key) key = none
  | [], _ => rfl
  | (k, v) :: rest, key => by
    by_cases hk : k = key
    · simp [Registry.erase, hk, find_erase_self rest key]
    · simp [Registry.erase, Registry.find, hk, find_erase_self rest key]

theorem find_erase_of_ne : ∀ (r : Registry) {key other : Int}, other ≠ key →
    Registry.find (Registry.erase r key) other = Registry.find r other
  | [], _, _, _ => rfl
  | (k, v) :: rest, key, other, hne => by
    have ih := find_erase_of_ne rest hne
    by_cases hk : k = key
    · subst hk
      have hko : ¬ k = other := fun e => hne e.symm
      simp [Registry.erase, Registry.find, hko, ih]
    · by_cases hko : k = other
      · subst hko
        simp [Registry.erase, Registry.find, hk]
      · simp [Registry.erase, Registry.find, hk, hko, ih]

theorem find_assign_self (r : Registry) (key : Int) (value : Task) :
    Registry.find (Registry.assign r key value) key = some value := by
  simp [Registry.assign, Registry.find]

theorem wrapInt_of_range {n : Int} (h1 : -2147483648 ≤ n) (h2 : n < 2147483648) :
    wrapInt n = n := by
  unfold wrapInt; omega

theorem registrations_replicate (func : Func) (interval now : Int) :
    ∀ n : Nat, registrations (List.replicate n (Call.set_interval func interval now)) = n
  | 0 => rfl
  | n + 1 => by
    rw [List.replicate_succ, registrations, registrations_replicate func interval now n]

theorem mem_of_mem_erase : ∀ (r : Registry) (key : Int) (e : Int × Task),
    e ∈ Registry.erase r key → e ∈ r
  | [], _, _, h => by simp [Registry.erase] at h
  | (k, v) :: rest, key, e, h => by
    unfold Registry.erase at h
    by_cases hk : k = key
    · rw [if_pos hk] at h
      exact List.mem_cons_of_mem _ (mem_of_mem_erase rest key e h)
    · rw [if_neg hk] at h
      rcases List.mem_cons.mp h with he | he
      · rw [he]; exact List.mem_cons_self _ _
      · exact List.mem_cons_of_mem _ (mem_of_mem_erase rest key e he)

theorem find_none_of_keys_ne : ∀ (r : Registry) (key : Int),
    (∀ e ∈ r, e.1 ≠ key) → Registry.find r key = none
  | [], _, _ => rfl
  | (k, v) :: rest, key, h => by
    have hk : ¬ k = key := h (k, v) (List.mem_cons_self _ _)
    simp only [Registry.find, hk, if_false]
    exact find_none_of_keys_ne rest key (fun e he => h e (List.mem_cons_of_mem _ he))

/-- While the counter does not overflow it counts the registrations, and every key of the
registry is an identifier issued before. -/
theorem perform_keys : ∀ (calls : List Call) (tm : TaskManager) (n : Nat),
    tm.next_task_id = (n : Int) → n + registrations calls ≤ 2147483647 →
    (∀ e ∈ tm.recurring_tasks, 0 ≤ e.1 ∧ e.1 < (n : Int)) →
    (tm.perform calls).1.next_task_id = ((n + registrations calls : Nat) : Int) ∧
    ∀ e ∈ (tm.perform calls).1.recurring_tasks,
      0 ≤ e.1 ∧ e.1 < ((n + registrations calls : Nat) : Int)
  | [], tm, n, hn, _, hkeys => by
    simpa [TaskManager.perform, registrations, hn] using hkeys
  | Call.set_interval func interval now :: calls, tm, n, hn, hle, hkeys => by
    simp only [registrations] at hle ⊢
    have hnext : (tm.set_interval func interval now).2.1.next_task_id = ((n + 1 : Nat) : Int) := by
      simp only [TaskManager.set_interval, hn]
      rw [wrapInt_of_range (by omega) (by omega)]
      push_cast; rfl
    have hkeys' : ∀ e ∈ (tm.set_interval func interval now).2.1.recurring_tasks,
        0 ≤ e.1 ∧ e.1 < ((n + 1 : Nat) : Int) := by
      intro e he
      simp only [TaskManager.set_interval, Registry.assign] at he
      rcases List.mem_cons.mp he with e1 | e1
      · rw [e1, hn]; simp only; omega
      · have := hkeys e (mem_of_mem_erase _ _ _ e1)
        omega
    have ih := perform_keys calls (tm.set_interval func interval now).2.1 (n + 1) hnext
      (by omega) hkeys'
    have harith : n + 1 + registrations calls = n + (registrations calls + 1) := by omega
    rw [harith] at ih
    exact ih
  | Call.set_timeout func timeout now :: calls, tm, n, hn, hle, hkeys => by
    simp only [registrations] at hle ⊢
    exact perform_keys calls (tm.set_timeout func timeout now).1 n hn hle hkeys
  | Call.clear_interval task_id :: calls, tm, n, hn, hle, hkeys => by
    simp only [registrations] at hle ⊢
    exact perform_keys calls (tm.clear_interval task_id).1 n hn hle
      (fun e he => hkeys e (mem_of_mem_erase _ _ _ he))

/-- While the counter does not overflow, the identifiers that a sequence of calls returns are
the successive values of the counter. -/
theorem perform_ids_of_le : ∀ (calls : List Call) (tm : TaskManager) (n : Nat),
    tm.next_task_id = (n : Int) → n + registrations calls ≤ 2147483647 →
    (tm.perform calls).2
      = (List.range (registrations calls)).map (fun k : Nat => ((n + k : Nat) : Int))
  | [], _, _, _, _ => rfl
  | Call.set_interval func interval now :: calls, tm, n, hn, hle => by
    simp only [registrations] at hle ⊢
    have hnext : (tm.set_interval func interval now).2.1.next_task_id = ((n + 1 : Nat) : Int) := by
      simp only [TaskManager.set_interval, hn]
      rw [wrapInt_of_range (by omega) (by omega)]
      push_cast; rfl
    have ih := perform_ids_of_le calls (tm.set_interval func interval now).2.1 (n + 1) hnext
      (by omega)
    have hhead : (tm.set_interval func interval now).1 = ((n + 0 : Nat) : Int) := by
      simp [TaskManager.set_interval, hn]
    simp only [TaskManager.perform]
    rw [ih, hhead, List.range_succ_eq_map, List.map_cons, List.map_map]
    congr 1
    apply List.map_congr_left
    intro k _
    simp only [Function.comp]
    congr 1
    omega
  | Call.set_timeout func timeout now :: calls, tm, n, hn, hle => by
    simp only [registrations] at hle ⊢
    exact perform_ids_of_le calls (tm.set_timeout func timeout now).1 n hn hle
  | Call.clear_interval task_id :: calls, tm, n, hn, hle => by
    simp only [registrations] at hle ⊢
    exact perform_ids_of_le calls (tm.clear_interval task_id).1 n hn hle

/-- A sequence of calls is defined exactly when the counter never has to pass 2147483647. -/
theorem perform_checked_eq : ∀ (calls : List Call) (tm : TaskManager) (n : Nat),
    tm.next_task_id = (n : Int) → n ≤ 2147483647 →
    tm.perform_checked calls
      = if n + registrations calls ≤ 2147483647 then Execution.returns (tm.perform calls)
        else Execution.undefined
  | [], _, n, _, hle => by
    simp [TaskManager.perform_checked, TaskManager.perform, registrations, hle]
  | Call.set_interval func interval now :: calls, tm, n, hn, hle => by
    by_cases hroom : n + 1 ≤ 2147483647
    · have hdef : tm.set_interval_checked func interval now
          = Execution.returns (tm.set_interval func interval now) := by
        simp only [TaskManager.set_interval_checked, hn]
        rw [if_pos (by omega)]
      have hnext : (tm.set_interval func interval now).2.1.next_task_id
          = ((n + 1 : Nat) : Int) := by
        simp only [TaskManager.set_interval, hn]
        rw [wrapInt_of_range (by omega) (by omega)]
        push_cast; rfl
      have ih := perform_checked_eq calls (tm.set_interval func interval now).2.1 (n + 1)
        hnext hroom
      simp only [TaskManager.perform_checked, hdef, ih, registrations, TaskManager.perform]
      by_cases hall : n + 1 + registrations calls ≤ 2147483647
      · rw [if_pos hall, if_pos (by omega)]
      · rw [if_neg hall, if_neg (by omega)]
    · have hundef : tm.set_interval_checked func interval now = Execution.undefined := by
        simp only [TaskManager.set_interval_checked, hn]
        rw [if_neg (by omega)]
      simp only [TaskManager.perform_checked, hundef, registrations]
      rw [if_neg (by omega)]
  | Call.set_timeout func timeout now :: calls, tm, n, hn, hle => by
    simpa [TaskManager.perform_checked, TaskManager.perform, registrations] using
      perform_checked_eq calls (tm.set_timeout func timeout now).1 n hn hle
  | Call.clear_interval task_id :: calls, tm, n, hn, hle => by
    simpa [TaskManager.perform_checked, TaskManager.perform, registrations] using
      perform_checked_eq calls (tm.clear_interval task_id).1 n hn hle

/-! ## Runs of the loop -/

theorem run_cons (el : EventLoop) (now : Int) (clock : List Int) :
    el.run (now :: clock)
      = (((el.step now).1.run clock).1, (el.step now).2 ++ ((el.step now).1.run clock).2) := rfl

/-- The tasks that a run calls come out in the order of their due times and were in the
queue. -/
theorem run_sorted : ∀ (clock : List Int) (el : EventLoop), IsHeap el.task_queue →
    ((invoked (el.run clock).2).map Task.time).Pairwise (· ≤ ·) ∧
    ∀ t ∈ invoked (el.run clock).2, t ∈ el.task_queue
  | [], el, _ => by simp [EventLoop.run, invoked]
  | now :: clock, el, h => by
    obtain ⟨_, hperm, hheap, hcalled⟩ := step_spec el now
    obtain ⟨ihs, ihm⟩ := run_sorted clock (el.step now).1 (hheap h)
    have hsub : ∀ t ∈ invoked ((el.step now).1.run clock).2, t ∈ el.task_queue := fun t ht =>
      hperm.subset (List.mem_append_right _ (ihm t ht))
    rw [run_cons]
    simp only [invoked_append]
    rcases hcalled with e | ⟨hd, e, htop, _⟩
    · rw [e]
      exact ⟨by simpa using ihs, by simpa using hsub⟩
    · rw [e]
      refine ⟨?_, ?_⟩
      · simp only [List.singleton_append, List.map_cons, List.pairwise_cons]
        refine ⟨?_, ihs⟩
        intro b hb
        obtain ⟨y, hy, rfl⟩ := List.mem_map.mp hb
        exact isHeap_top_le h htop (hsub y hy)
      · intro t ht
        rcases List.mem_append.mp ht with ht | ht
        · simp at ht
          subst ht
          exact mem_of_top htop
        · exact hsub t ht

/-- A running loop whose clock readings are all at or after every due time of the queue, and
which makes at least as many iterations as the queue holds tasks, calls every task of the
queue. -/
theorem run_calls_all : ∀ (clock : List Int) (el : EventLoop), el.running = true →
    el.task_queue.length ≤ clock.length →
    (∀ now ∈ clock, ∀ t ∈ el.task_queue, t.time ≤ now) →
    (invoked (el.run clock).2).Perm el.task_queue
  | [], el, _, hlen, _ => by
    have : el.task_queue = [] := List.length_eq_zero.mp (by simpa using hlen)
    simp [EventLoop.run, invoked, this]
  | now :: clock, el, hrun, hlen, hdue => by
    rw [run_cons, invoked_append]
    unfold EventLoop.step
    rw [if_pos hrun]
    rcases iteration_cases el now with ⟨hempty, e⟩ | ⟨hd, htop, _, e⟩ | ⟨hd, htop, hlate, _⟩
    · rw [e]
      have ih := run_calls_all clock el hrun (by simp [hempty])
        (fun n hn t ht => hdue n (List.mem_cons_of_mem _ hn) t ht)
      simpa [invoked] using ih
    · rw [e, invoked_invoke]
      have hp := perm_pop htop
      have ih := run_calls_all clock { el with task_queue := pop el.task_queue } hrun
        (by simp only [length_pop]; simp at hlen; omega)
        (fun n hn t ht => hdue n (List.mem_cons_of_mem _ hn) t
          (hp.symm.subset (List.mem_cons_of_mem _ ht)))
      exact ((ih.cons hd).trans hp.symm)
    · exfalso
      have := hdue now (List.mem_cons_self _ _) hd (mem_of_top htop)
      omega

/-- An interleaving of `add_task` calls and loop passes keeps the heap order, and the tasks
called together with the tasks left in the queue are the tasks enqueued together with the
tasks that were in the queue. -/
theorem exec_spec : ∀ (ops : List Op) (el : EventLoop), IsHeap el.task_queue →
    IsHeap (el.exec ops).1.task_queue ∧
    (invoked (el.exec ops).2 ++ (el.exec ops).1.task_queue).Perm (enqueued ops ++ el.task_queue)
  | [], el, h => by simpa [EventLoop.exec, invoked, enqueued] using h
  | Op.add_task task :: ops, el, h => by
    obtain ⟨ih1, ih2⟩ := exec_spec ops (el.add_task task) (isHeap_push h task)
    refine ⟨ih1, ?_⟩
    simp only [EventLoop.exec, enqueued]
    refine ih2.trans ?_
    simp only [EventLoop.add_task]
    exact ((perm_push el.task_queue task).append_left (enqueued ops)).trans
      (List.perm_middle)
  | Op.iterate now :: ops, el, h => by
    obtain ⟨_, hperm, hheap, _⟩ := step_spec el now
    obtain ⟨ih1, ih2⟩ := exec_spec ops (el.step now).1 (hheap h)
    refine ⟨ih1, ?_⟩
    simp only [EventLoop.exec, enqueued, invoked_append, List.append_assoc]
    calc (invoked (el.step now).2 ++
            (invoked ((el.step now).1.exec ops).2 ++ ((el.step now).1.exec ops).1.task_queue)).Perm
          (invoked (el.step now).2 ++ (enqueued ops ++ (el.step now).1.task_queue)) :=
            ih2.append_left _
      _ |>.Perm (enqueued ops ++ (invoked (el.step now).2 ++ (el.step now).1.task_queue)) := by
            rw [← List.append_assoc, ← List.append_assoc]
            exact List.perm_append_comm.append_right _
      _ |>.Perm (enqueued ops ++ el.task_queue) := hperm.append_left _

/-! ## The claims -/

/-- C1: in every non-empty queue that `add_task` and `pop` can produce, the task that `run`
inspects with `top()` is due no later than any task held in the queue (`operator<` never ranks
it below one of them), and it is the task that an iteration pops and calls once it is due. -/
theorem top_is_earliest (q : List Task) (hq : Reachable q) (hne : q ≠ []) :
    ∃ hd, top q = some hd ∧ (∀ t ∈ q, hd.time ≤ t.time) ∧ (∀ t ∈ q, Task.lt hd t = false) ∧
      ∀ (running : Bool) (now : Int), hd.time ≤ now →
        EventLoop.iteration ⟨q, running⟩ now = (⟨pop q, running⟩, invoke hd) := by
  cases htop : top q with
  | none => exact absurd (top_eq_none htop) hne
  | some hd =>
    have hmin : ∀ t ∈ q, hd.time ≤ t.time :=
      fun t ht => isHeap_top_le (reachable_isHeap hq) htop ht
    refine ⟨hd, rfl, hmin, ?_, ?_⟩
    · intro t ht
      have := hmin t ht
      simp [Task.lt, this]
    · intro running now hdue
      simp [EventLoop.iteration, htop, hdue]

/-- Witness of C1: the queue after three `add_task` calls with due times 30, 10, 20. -/
theorem top_is_earliest_witness :
    Reachable (push (push (push [] ⟨⟨1, Outcome.returns⟩, 30⟩) ⟨⟨2, Outcome.returns⟩, 10⟩)
        ⟨⟨3, Outcome.returns⟩, 20⟩) ∧
    push (push (push [] ⟨⟨1, Outcome.returns⟩, 30⟩) ⟨⟨2, Outcome.returns⟩, 10⟩)
        ⟨⟨3, Outcome.returns⟩, 20⟩ ≠ [] ∧
    ∃ hd, top (push (push (push [] ⟨⟨1, Outcome.returns⟩, 30⟩) ⟨⟨2, Outcome.returns⟩, 10⟩)
        ⟨⟨3, Outcome.returns⟩, 20⟩) = some hd ∧
      (∀ t ∈ push (push (push [] ⟨⟨1, Outcome.returns⟩, 30⟩) ⟨⟨2, Outcome.returns⟩, 10⟩)
        ⟨⟨3, Outcome.returns⟩, 20⟩, hd.time ≤ t.time) ∧
      (∀ t ∈ push (push (push [] ⟨⟨1, Outcome.returns⟩, 30⟩) ⟨⟨2, Outcome.returns⟩, 10⟩)
        ⟨⟨3, Outcome.returns⟩, 20⟩, Task.lt hd t = false) ∧
      ∀ (running : Bool) (now : Int), hd.time ≤ now →
        EventLoop.iteration
          ⟨push (push (push [] ⟨⟨1, Outcome.returns⟩, 30⟩) ⟨⟨2, Outcome.returns⟩, 10⟩)
            ⟨⟨3, Outcome.returns⟩, 20⟩, running⟩ now
        = (⟨pop (push (push (push [] ⟨⟨1, Outcome.returns⟩, 30⟩) ⟨⟨2, Outcome.returns⟩, 10⟩)
            ⟨⟨3, Outcome.returns⟩, 20⟩), running⟩, invoke hd) :=
  ⟨Reachable.add_task _ (Reachable.add_task _ (Reachable.add_task _ Reachable.empty)),
   by decide,
   top_is_earliest _
     (Reachable.add_task _ (Reachable.add_task _ (Reachable.add_task _ Reachable.empty)))
     (by decide)⟩

/-- C2: an iteration of `run` calls a task only if the clock reading of that iteration is at or
after the task's due time; the task it calls is the one at the front of the queue. -/
theorem called_only_when_due (el : EventLoop) (now : Int) (task : Task)
    (h : Event.call task ∈ (el.iteration now).2) :
    task.time ≤ now ∧ top el.task_queue = some task := by
  have hmem : task ∈ invoked (el.iteration now).2 := mem_invoked.mpr h
  rcases iteration_cases el now with ⟨_, e⟩ | ⟨hd, htop, hdue, e⟩ | ⟨hd, _, _, e⟩
  · rw [e] at hmem; simp [invoked] at hmem
  · rw [e, invoked_invoke] at hmem
    simp at hmem
    subst hmem
    exact ⟨hdue, htop⟩
  · rw [e] at hmem; simp [invoked] at hmem

/-- Witness of C2: a queue holding one task due at 5, inspected when the clock reads 7. -/
theorem called_only_when_due_witness :
    Event.call ⟨⟨1, Outcome.returns⟩, 5⟩
        ∈ (EventLoop.iteration ⟨[⟨⟨1, Outcome.returns⟩, 5⟩], true⟩ 7).2 ∧
    (Task.time ⟨⟨1, Outcome.returns⟩, 5⟩ ≤ 7 ∧
      top (EventLoop.task_queue ⟨[⟨⟨1, Outcome.returns⟩, 5⟩], true⟩)
        = some ⟨⟨1, Outcome.returns⟩, 5⟩) :=
  ⟨by decide, called_only_when_due _ _ _ (by decide)⟩

/-- C3 fails on the code: after `set_interval(f, 50)` on a fresh task manager has returned 0
and `clear_interval(0)` has removed the registry entry, the task is still the front of the queue,
and an iteration of the loop at any clock reading from the due time on calls `f`. -/
theorem cleared_interval_still_called (f : Func) (now0 : Int) (late : Nat) :
    (TaskManager.new.set_interval f 50 now0).1 = 0 ∧
    Registry.find
      ((TaskManager.new.set_interval f 50 now0).2.1.clear_interval 0).1.recurring_tasks 0
      = none ∧
    ((TaskManager.new.set_interval f 50 now0).2.1.clear_interval 0).1.event_loop.task_queue
      = [⟨f, now0 + milliseconds 50⟩] ∧
    invoked (((TaskManager.new.set_interval f 50 now0).2.1.clear_interval 0).1.event_loop.iteration
        (now0 + milliseconds 50 + late)).2
      = [⟨f, now0 + milliseconds 50⟩] := by
  have hq : ((TaskManager.new.set_interval f 50 now0).2.1.clear_interval 0).1.event_loop
      = ⟨[⟨f, now0 + milliseconds 50⟩], true⟩ := by
    simp [TaskManager.set_interval, TaskManager.clear_interval, TaskManager.new, EventLoop.new,
      EventLoop.add_task, push, push_heap, siftUp]
  refine ⟨rfl, ?_, ?_, ?_⟩
  · simp [TaskManager.set_interval, TaskManager.clear_interval, TaskManager.new,
      Registry.assign, Registry.erase, Registry.find]
  · rw [hq]
  · rw [hq]
    have hdue : now0 + milliseconds 50 ≤ now0 + milliseconds 50 + (late : Int) := by omega
    simp [EventLoop.iteration, top, hdue, invoked_invoke]

/-- C4 fails on the code: `next_task_id` is a 32-bit `int` that `set_interval` increments
without a check.  The first 2147483647 registrations on a fresh task manager are defined and
leave the counter at 2147483647; in the next one, call number 2147483647 counting from 0, the
increment overflows, so a sequence of 2147483648 registrations has no defined outcome and that
call has no identifier that it is bound to return. -/
theorem registration_overflows :
    TaskManager.new.perform_checked
        (List.replicate 2147483647 (Call.set_interval ⟨0, Outcome.returns⟩ 0 0))
      = Execution.returns (TaskManager.new.perform
          (List.replicate 2147483647 (Call.set_interval ⟨0, Outcome.returns⟩ 0 0))) ∧
    (TaskManager.new.perform
        (List.replicate 2147483647 (Call.set_interval ⟨0, Outcome.returns⟩ 0 0))).1.next_task_id
      = 2147483647 ∧
    TaskManager.new.perform_checked
        (List.replicate 2147483648 (Call.set_interval ⟨0, Outcome.returns⟩ 0 0))
      = Execution.undefined := by
  refine ⟨?_, ?_, ?_⟩
  · rw [perform_checked_eq _ TaskManager.new 0 rfl (by omega), registrations_replicate,
      if_pos (by omega)]
  · have := (perform_keys (List.replicate 2147483647 (Call.set_interval ⟨0, Outcome.returns⟩ 0 0))
      TaskManager.new 0 rfl (by rw [registrations_replicate])
      (fun e he => by simp [TaskManager.new] at he)).1
    rw [this, registrations_replicate]
    rfl
  · rw [perform_checked_eq _ TaskManager.new 0 rfl (by omega), registrations_replicate,
      if_neg (by omega)]

/-- C4 as amended: from a fresh task manager and for every sequence of `set_interval`,
`set_timeout` and `clear_interval` calls with at most 2147483647 registrations, every call is
defined and the `k`-th call of `set_interval` (counting from 0) returns `k`, whatever was
cleared before; the identifiers returned are 0, 1, 2, ... in this order and no identifier is
returned twice. -/
theorem identifiers_count_up (calls : List Call) (h : registrations calls ≤ 2147483647) :
    TaskManager.new.perform_checked calls = Execution.returns (TaskManager.new.perform calls) ∧
    (TaskManager.new.perform calls).2
      = (List.range (registrations calls)).map (fun k : Nat => (k : Int)) ∧
    (∀ k, k < registrations calls → (TaskManager.new.perform calls).2[k]? = some (k : Int)) ∧
    (TaskManager.new.perform calls).2.Nodup := by
  have hids : (TaskManager.new.perform calls).2
      = (List.range (registrations calls)).map (fun k : Nat => (k : Int)) := by
    rw [perform_ids_of_le calls TaskManager.new 0 rfl (by omega)]
    apply List.map_congr_left
    intro k _
    simp
  refine ⟨?_, hids, ?_, ?_⟩
  · rw [perform_checked_eq calls TaskManager.new 0 rfl (by omega), if_pos (by omega)]
  · intro k hk
    rw [hids, List.getElem?_map, List.getElem?_range hk]
    rfl
  · rw [hids]
    refine List.Nodup.map_on ?_ (List.nodup_range _)
    intro a _ b _ hab
    exact Int.ofNat.inj hab

/-- Witness of C4 as amended: two registrations with a cancellation and a timeout in between;
the registrations return 0 and 1. -/
theorem identifiers_count_up_witness :
    registrations
        [Call.set_interval ⟨7, Outcome.returns⟩ 50 0, Call.clear_interval 0,
          Call.set_timeout ⟨8, Outcome.returns⟩ 10 0, Call.set_interval ⟨9, Outcome.returns⟩ 20 5]
      ≤ 2147483647 ∧
    (TaskManager.new.perform
        [Call.set_interval ⟨7, Outcome.returns⟩ 50 0, Call.clear_interval 0,
          Call.set_timeout ⟨8, Outcome.returns⟩ 10 0,
          Call.set_interval ⟨9, Outcome.returns⟩ 20 5]).2
      = (List.range (registrations
          [Call.set_interval ⟨7, Outcome.returns⟩ 50 0, Call.clear_interval 0,
            Call.set_timeout ⟨8, Outcome.returns⟩ 10 0,
            Call.set_interval ⟨9, Outcome.returns⟩ 20 5])).map (fun k : Nat => (k : Int)) :=
  ⟨by decide,
   (identifiers_count_up
      [Call.set_interval ⟨7, Outcome.returns⟩ 50 0, Call.clear_interval 0,
        Call.set_timeout ⟨8, Outcome.returns⟩ 10 0, Call.set_interval ⟨9, Outcome.returns⟩ 20 5]
      (by decide)).2.1⟩

/-- C5: `clear_interval` with an identifier that has no registry entry reports nothing and
returns the state it was given (registry, queue and counter included); after any
`clear_interval(id)` the identifier has no entry, and clearing it a second time gives the same
state as clearing it once. -/
theorem clear_unknown_is_noop (tm : TaskManager) (task_id : Int)
    (h : Registry.find tm.recurring_tasks task_id = none) :
    tm.clear_interval task_id = (tm, []) ∧
    ∀ s : TaskManager,
      Registry.find (s.clear_interval task_id).1.recurring_tasks task_id = none ∧
      (s.clear_interval task_id).1.clear_interval task_id = s.clear_interval task_id := by
  constructor
  · unfold TaskManager.clear_interval
    rw [erase_of_find_none _ _ h]
  · intro s
    have hnone : Registry.find (s.clear_interval task_id).1.recurring_tasks task_id = none :=
      find_erase_self _ _
    refine ⟨hnone, ?_⟩
    have := erase_of_find_none _ _ hnone
    unfold TaskManager.clear_interval at this ⊢
    simp only at this ⊢
    rw [this]

/-- Witness of C5: identifier 4 was never issued in a state that holds one interval. -/
theorem clear_unknown_is_noop_witness :
    Registry.find (TaskManager.new.set_interval ⟨1, Outcome.returns⟩ 50 0).2.1.recurring_tasks 4
      = none ∧
    ((TaskManager.new.set_interval ⟨1, Outcome.returns⟩ 50 0).2.1.clear_interval 4
        = ((TaskManager.new.set_interval ⟨1, Outcome.returns⟩ 50 0).2.1, []) ∧
      ∀ s : TaskManager,
        Registry.find (s.clear_interval 4).1.recurring_tasks 4 = none ∧
        (s.clear_interval 4).1.clear_interval 4 = s.clear_interval 4) :=
  ⟨by decide, clear_unknown_is_noop _ 4 (by decide)⟩

/-- C6: `clear_interval(id)` removes the registry entry of `id` and changes nothing else: the
other entries, the counter and the event loop with its queue are as before.  So the occurrence
that `set_interval` enqueued is still in the queue after the interval is cleared, and a running
loop that makes enough iterations at clock readings past every due time calls every task that
was in the queue, the cleared one included. -/
theorem clear_interval_frame (tm : TaskManager) (task_id : Int) :
    Registry.find (tm.clear_interval task_id).1.recurring_tasks task_id = none ∧
    (∀ other, other ≠ task_id →
      Registry.find (tm.clear_interval task_id).1.recurring_tasks other
        = Registry.find tm.recurring_tasks other) ∧
    (tm.clear_interval task_id).1.next_task_id = tm.next_task_id ∧
    (tm.clear_interval task_id).1.event_loop = tm.event_loop ∧
    (tm.clear_interval task_id).2 = [] ∧
    (∀ (func : Func) (interval now : Int),
      (⟨func, now + milliseconds interval⟩ : Task) ∈
        ((tm.set_interval func interval now).2.1.clear_interval
          (tm.set_interval func interval now).1).1.event_loop.task_queue) ∧
    (∀ clock : List Int, tm.event_loop.running = true →
      tm.event_loop.task_queue.length ≤ clock.length →
      (∀ now ∈ clock, ∀ t ∈ tm.event_loop.task_queue, t.time ≤ now) →
      ∀ t ∈ tm.event_loop.task_queue,
        Event.call t ∈ ((tm.clear_interval task_id).1.event_loop.run clock).2) := by
  refine ⟨find_erase_self _ _, fun other hne => find_erase_of_ne _ hne, rfl, rfl, rfl, ?_, ?_⟩
  · intro func interval now
    simp only [TaskManager.clear_interval, TaskManager.set_interval, EventLoop.add_task]
    exact (perm_push _ _).symm.subset (List.mem_cons_self _ _)
  · intro clock hrun hlen hdue t ht
    have hperm := run_calls_all clock tm.event_loop hrun hlen hdue
    exact mem_invoked.mp (hperm.symm.subset ht)

/-- Instance of C6: an interval of 50 ms registered at time 0 on a fresh task manager and
cleared at once is called by the first iteration of a loop whose clock reads 60 ms. -/
theorem clear_interval_frame_witness :
    Event.call ⟨⟨1, Outcome.returns⟩, milliseconds 50⟩ ∈
      (((TaskManager.new.set_interval ⟨1, Outcome.returns⟩ 50 0).2.1.clear_interval
          0).1.event_loop.run [milliseconds 60]).2 :=
  (clear_interval_frame (TaskManager.new.set_interval ⟨1, Outcome.returns⟩ 50 0).2.1 0).2.2.2.2.2.2
    [milliseconds 60] (by decide) (by decide) (by decide) _ (by decide)

/-- C7: when tasks are enqueued in any order and the loop then runs without further enqueues,
the tasks are called by non-decreasing due time (and only enqueued tasks are called); timeouts
of 300 ms, 100 ms and 200 ms registered in that order at the same instant are called in the
order 100 ms, 200 ms, 300 ms. -/
theorem calls_in_due_order (tasks : List Task) (clock : List Int) :
    ((invoked ((tasks.foldl EventLoop.add_task EventLoop.new).run clock).2).map
        Task.time).Pairwise (· ≤ ·) ∧
    (∀ t ∈ invoked ((tasks.foldl EventLoop.add_task EventLoop.new).run clock).2, t ∈ tasks) ∧
    ∀ (f300 f100 f200 : Func) (now0 : Int),
      invoked ((((TaskManager.new.set_timeout f300 300 now0).1.set_timeout f100 100
          now0).1.set_timeout f200 200 now0).1.event_loop.run
          [now0 + milliseconds 100, now0 + milliseconds 200, now0 + milliseconds 300]).2
        = [⟨f100, now0 + milliseconds 100⟩, ⟨f200, now0 + milliseconds 200⟩,
            ⟨f300, now0 + milliseconds 300⟩] := by
  have hfold : ∀ (ts : List Task) (el : EventLoop), IsHeap el.task_queue →
      IsHeap (ts.foldl EventLoop.add_task el).task_queue ∧
      (ts.foldl EventLoop.add_task el).task_queue.Perm (ts.reverse ++ el.task_queue) := by
    intro ts
    induction ts with
    | nil => intro el h; exact ⟨h, by simp⟩
    | cons t ts ih =>
      intro el h
      obtain ⟨h1, h2⟩ := ih (el.add_task t) (isHeap_push h t)
      refine ⟨h1, ?_⟩
      simp only [List.foldl_cons, List.reverse_cons, List.append_assoc, List.singleton_append]
      exact h2.trans ((perm_push el.task_queue t).append_left _)
  obtain ⟨hheap, hperm⟩ := hfold tasks EventLoop.new isHeap_nil
  obtain ⟨hs, hm⟩ := run_sorted clock _ hheap
  refine ⟨hs, ?_, ?_⟩
  · intro t ht
    have := hperm.subset (hm t ht)
    simpa [EventLoop.new] using this
  · intro f300 f100 f200 now0
    simp [TaskManager.set_timeout, TaskManager.new, EventLoop.new, EventLoop.add_task, push,
      push_heap, siftUp, swap, Task.lt, milliseconds, ticksPerMillisecond, EventLoop.run,
      EventLoop.step, EventLoop.iteration, top, pop, pop_heap, siftDown, largerChild,
      invoked_append, invoked_invoke, invoked]

/-- C8: after any interleaving of `add_task` calls and loop passes on a fresh event loop, with
`N` tasks enqueued and `M` tasks popped and called, `M ≤ N`, the queue holds `N - M` tasks, the
called tasks together with the queued ones are exactly the enqueued ones, and the front of the
queue is due no later than any queued task. -/
theorem queue_after_interleaving (ops : List Op) :
    (invoked (EventLoop.new.exec ops).2).length ≤ (enqueued ops).length ∧
    (EventLoop.new.exec ops).1.task_queue.length
      = (enqueued ops).length - (invoked (EventLoop.new.exec ops).2).length ∧
    (invoked (EventLoop.new.exec ops).2 ++ (EventLoop.new.exec ops).1.task_queue).Perm
      (enqueued ops) ∧
    ∀ hd, top (EventLoop.new.exec ops).1.task_queue = some hd →
      ∀ t ∈ (EventLoop.new.exec ops).1.task_queue, hd.time ≤ t.time := by
  obtain ⟨hheap, hperm⟩ := exec_spec ops EventLoop.new isHeap_nil
  have hperm' : (invoked (EventLoop.new.exec ops).2 ++
      (EventLoop.new.exec ops).1.task_queue).Perm (enqueued ops) := by
    simpa [EventLoop.new] using hperm
  have hlen := hperm'.length_eq
  rw [List.length_append] at hlen
  exact ⟨by omega, by omega, hperm', fun hd htop t ht => isHeap_top_le hheap htop ht⟩

/-- C10: `set_timeout(f, d)` at clock reading `now` puts one task with action `f` due at
`now + d` ms into the queue next to the tasks already there and changes nothing else: registry,
counter and `running` flag are as before and no event happens; no `clear_interval` call
afterwards, whatever its argument, changes the event loop. -/
theorem set_timeout_effect (tm : TaskManager) (func : Func) (timeout now : Int) :
    (tm.set_timeout func timeout now).1.event_loop.task_queue.Perm
      (⟨func, now + milliseconds timeout⟩ :: tm.event_loop.task_queue) ∧
    (tm.set_timeout func timeout now).1.event_loop.task_queue.length
      = tm.event_loop.task_queue.length + 1 ∧
    (tm.set_timeout func timeout now).1.recurring_tasks = tm.recurring_tasks ∧
    (tm.set_timeout func timeout now).1.next_task_id = tm.next_task_id ∧
    (tm.set_timeout func timeout now).1.event_loop.running = tm.event_loop.running ∧
    (tm.set_timeout func timeout now).2 = [] ∧
    ∀ task_id : Int,
      ((tm.set_timeout func timeout now).1.clear_interval task_id).1.event_loop
        = (tm.set_timeout func timeout now).1.event_loop := by
  refine ⟨perm_push _ _, length_push _ _, rfl, rfl, rfl, rfl, fun _ => rfl⟩



/-! ## Interleavings on the task manager -/

theorem call_events (tm : TaskManager) (c : Call) : (tm.call c).2 = [] := by
  cases c <;> rfl

theorem call_running (tm : TaskManager) (c : Call) :
    (tm.call c).1.event_loop.running = tm.event_loop.running := by
  cases c <;> rfl

theorem exec_cons_call (tm : TaskManager) (c : Call) (steps : List Step) :
    tm.exec (Step.call c :: steps)
      = (((tm.call c).1.exec steps).1, (tm.call c).2 ++ ((tm.call c).1.exec steps).2) := rfl

theorem exec_cons_iterate (tm : TaskManager) (now : Int) (steps : List Step) :
    tm.exec (Step.iterate now :: steps)
      = (((tm.iterate now).1.exec steps).1,
          (tm.iterate now).2 ++ ((tm.iterate now).1.exec steps).2) := rfl

/-- An interleaving of calls and loop passes keeps the heap order and the `running` flag, and
the tasks called together with the tasks left in the queue are the tasks registered together
with the tasks that were in the queue. -/
theorem tm_exec_spec : ∀ (steps : List Step) (tm : TaskManager),
    IsHeap tm.event_loop.task_queue →
    IsHeap (tm.exec steps).1.event_loop.task_queue ∧
    (tm.exec steps).1.event_loop.running = tm.event_loop.running ∧
    (invoked (tm.exec steps).2 ++ (tm.exec steps).1.event_loop.task_queue).Perm
      (registered steps ++ tm.event_loop.task_queue)
  | [], tm, h => by simpa [TaskManager.exec, invoked, registered] using h
  | Step.call (Call.set_interval func interval now) :: steps, tm, h => by
    obtain ⟨ih1, ih2, ih3⟩ := tm_exec_spec steps
      (tm.call (Call.set_interval func interval now)).1 (isHeap_push h _)
    rw [exec_cons_call, call_events]
    refine ⟨ih1, ih2, ?_⟩
    simp only [List.nil_append, registered]
    exact ih3.trans (((perm_push tm.event_loop.task_queue _).append_left
      (registered steps)).trans List.perm_middle)
  | Step.call (Call.set_timeout func timeout now) :: steps, tm, h => by
    obtain ⟨ih1, ih2, ih3⟩ := tm_exec_spec steps
      (tm.call (Call.set_timeout func timeout now)).1 (isHeap_push h _)
    rw [exec_cons_call, call_events]
    refine ⟨ih1, ih2, ?_⟩
    simp only [List.nil_append, registered]
    exact ih3.trans (((perm_push tm.event_loop.task_queue _).append_left
      (registered steps)).trans List.perm_middle)
  | Step.call (Call.clear_interval task_id) :: steps, tm, h => by
    obtain ⟨ih1, ih2, ih3⟩ := tm_exec_spec steps (tm.call (Call.clear_interval task_id)).1 h
    rw [exec_cons_call, call_events]
    exact ⟨ih1, ih2, by simpa [registered] using ih3⟩
  | Step.iterate now :: steps, tm, h => by
    obtain ⟨hrun, hperm, hheap, _⟩ := step_spec tm.event_loop now
    obtain ⟨ih1, ih2, ih3⟩ := tm_exec_spec steps (tm.iterate now).1 (hheap h)
    rw [exec_cons_iterate]
    refine ⟨ih1, ih2.trans hrun, ?_⟩
    simp only [registered, invoked_append, List.append_assoc]
    calc (invoked (tm.iterate now).2 ++ (invoked ((tm.iterate now).1.exec steps).2 ++
            ((tm.iterate now).1.exec steps).1.event_loop.task_queue)).Perm
          (invoked (tm.iterate now).2 ++
            (registered steps ++ (tm.iterate now).1.event_loop.task_queue)) :=
            ih3.append_left _
      _ |>.Perm (registered steps ++
            (invoked (tm.iterate now).2 ++ (tm.iterate now).1.event_loop.task_queue)) := by
            rw [← List.append_assoc, ← List.append_assoc]
            exact List.perm_append_comm.append_right _
      _ |>.Perm (registered steps ++ tm.event_loop.task_queue) := hperm.append_left _

/-- Passes of the loop change neither the registry nor the counter. -/
theorem exec_iterations_registry : ∀ (clock : List Int) (tm : TaskManager),
    (tm.exec (clock.map Step.iterate)).1.recurring_tasks = tm.recurring_tasks ∧
    (tm.exec (clock.map Step.iterate)).1.next_task_id = tm.next_task_id
  | [], _ => ⟨rfl, rfl⟩
  | now :: clock, tm => by
    simpa [exec_cons_iterate, TaskManager.iterate] using
      exec_iterations_registry clock (tm.iterate now).1


/-! ## The queue operations look at due times only -/

theorem swap_map (g : Task → Task) (xs : List Task) (i j : Nat) :
    swap (xs.map g) i j = (swap xs i j).map g := by
  unfold swap
  rw [List.getElem?_map, List.getElem?_map]
  cases xs[i]? with
  | none => rfl
  | some a =>
    cases xs[j]? with
    | none => rfl
    | some b => simp [List.map_set]

theorem largerChild_map (g : Task → Task) (hg : ∀ t, (g t).time = t.time) (xs : List Task)
    (n i : Nat) : largerChild (xs.map g) n i = largerChild xs n i := by
  unfold largerChild
  rw [List.getElem?_map, List.getElem?_map]
  cases xs[2 * i + 1]? with
  | none => rfl
  | some l =>
    cases xs[2 * i + 2]? with
    | none => rfl
    | some r => simp [Task.lt, hg]

theorem siftDown_map (g : Task → Task) (hg : ∀ t, (g t).time = t.time) :
    ∀ (fuel : Nat) (xs : List Task) (n i : Nat),
      siftDown fuel (xs.map g) n i = (siftDown fuel xs n i).map g
  | 0, _, _, _ => rfl
  | fuel + 1, xs, n, i => by
    rw [siftDown, siftDown, largerChild_map g hg]
    cases largerChild xs n i with
    | none => rfl
    | some c =>
      simp only [List.getElem?_map]
      cases xs[i]? with
      | none => rfl
      | some x =>
        cases xs[c]? with
        | none => rfl
        | some y =>
          simp only [Option.map_some', Task.lt, hg]
          split
          · rw [swap_map, siftDown_map g hg fuel]
          · rfl

theorem pop_map (g : Task → Task) (hg : ∀ t, (g t).time = t.time) (xs : List Task) :
    pop (xs.map g) = (pop xs).map g := by
  unfold pop pop_heap
  rw [List.length_map, swap_map, siftDown_map g hg, List.map_dropLast]

theorem returning_time (t : Task) : t.returning.time = t.time := rfl

/-! ## The claims on the registry entry, failing actions and single invocation -/

/-- C11 fails on the code: an interval of 50 ms registered at time 0 on a fresh task manager
is popped and called by the loop pass at 50 ms, the queue is empty afterwards, and the registry
still holds the entry for identifier 0. -/
theorem registry_entry_survives_run :
    invoked ((TaskManager.new.set_interval ⟨1, Outcome.returns⟩ 50 0).2.1.iterate
        (milliseconds 50)).2 = [⟨⟨1, Outcome.returns⟩, milliseconds 50⟩] ∧
    ((TaskManager.new.set_interval ⟨1, Outcome.returns⟩ 50 0).2.1.iterate
        (milliseconds 50)).1.event_loop.task_queue = [] ∧
    Registry.find ((TaskManager.new.set_interval ⟨1, Outcome.returns⟩ 50 0).2.1.iterate
        (milliseconds 50)).1.recurring_tasks 0 = some ⟨⟨1, Outcome.returns⟩, milliseconds 50⟩ := by
  decide

/-- C11 as amended: a pass of the loop leaves the registry as it is, so the entry that
`set_interval` stored under its identifier is still there, with the same task, after any number
of loop passes, whether or not the occurrence has been popped and run. -/
theorem registry_unchanged_by_loop (tm : TaskManager) (func : Func) (interval now0 : Int)
    (clock : List Int) :
    (∀ (s : TaskManager) (now : Int), (s.iterate now).1.recurring_tasks = s.recurring_tasks) ∧
    Registry.find
      ((tm.set_interval func interval now0).2.1.exec (clock.map Step.iterate)).1.recurring_tasks
      (tm.set_interval func interval now0).1 = some ⟨func, now0 + milliseconds interval⟩ := by
  refine ⟨fun _ _ => rfl, ?_⟩
  rw [(exec_iterations_registry clock _).1]
  exact find_assign_self _ _ _

/-- C12: when the task at the front of the queue is due and its action throws, the pass of the
loop catches what was thrown: `running` stays true, the queue is the old one without that task,
the only events are the call and one line on `std::cerr`, the resulting queue is the one that
the same pass leaves when every action returns normally, and a loop that goes on with late
enough clock readings calls every task that was queued. -/
theorem failing_action_is_caught (el : EventLoop) (now : Int) (hd : Task)
    (hrun : el.running = true) (htop : top el.task_queue = some hd) (hdue : hd.time ≤ now)
    (hfail : hd.func.outcome ≠ Outcome.returns) :
    (el.step now).1.running = true ∧
    (el.step now).1.task_queue = pop el.task_queue ∧
    el.task_queue.Perm (hd :: (el.step now).1.task_queue) ∧
    (∃ line, (el.step now).2 = [Event.call hd, Event.cerr line]) ∧
    (EventLoop.step ⟨el.task_queue.map Task.returning, el.running⟩ now).1
      = ⟨(el.step now).1.task_queue.map Task.returning, (el.step now).1.running⟩ ∧
    ∀ clock : List Int, el.task_queue.length ≤ clock.length + 1 →
      (∀ n ∈ clock, ∀ t ∈ el.task_queue, t.time ≤ n) →
      ∀ t ∈ el.task_queue, Event.call t ∈ (el.run (now :: clock)).2 := by
  have hstep : el.step now = ({ el with task_queue := pop el.task_queue }, invoke hd) := by
    simp [EventLoop.step, hrun, EventLoop.iteration, htop, hdue]
  have hperm := perm_pop htop
  rw [hstep]
  refine ⟨hrun, rfl, hperm, ?_, ?_, ?_⟩
  · unfold invoke
    split
    · next h => exact absurd h hfail
    · exact ⟨_, rfl⟩
    · exact ⟨_, rfl⟩
  · have htop' : top (el.task_queue.map Task.returning) = some hd.returning := by
      simp only [top, List.head?_map] at htop ⊢
      rw [htop]; rfl
    have hdue' : hd.returning.time ≤ now := hdue
    simp [EventLoop.step, hrun, EventLoop.iteration, htop', hdue',
      pop_map Task.returning returning_time]
  · intro clock hlen hlate t ht
    rw [run_cons, hstep]
    have hrest := run_calls_all clock { el with task_queue := pop el.task_queue } hrun
      (by simp only [length_pop]; omega)
      (fun n hn t ht => hlate n hn t (hperm.symm.subset (List.mem_cons_of_mem _ ht)))
    rw [← mem_invoked, invoked_append, invoked_invoke]
    rcases List.mem_cons.mp (hperm.subset ht) with e | hmem
    · simp [e]
    · exact List.mem_append_right _ (hrest.symm.subset hmem)

/-- Witness of C12: the front task, due at 5, throws something that is no `std::exception`; a
second task is due at 9; the clock reads 7. -/
theorem failing_action_is_caught_witness :
    EventLoop.running ⟨[⟨⟨1, Outcome.throwsOther⟩, 5⟩, ⟨⟨2, Outcome.returns⟩, 9⟩], true⟩ = true ∧
    top (EventLoop.task_queue ⟨[⟨⟨1, Outcome.throwsOther⟩, 5⟩, ⟨⟨2, Outcome.returns⟩, 9⟩], true⟩)
      = some ⟨⟨1, Outcome.throwsOther⟩, 5⟩ ∧
    Task.time ⟨⟨1, Outcome.throwsOther⟩, 5⟩ ≤ 7 ∧
    Func.outcome (Task.func ⟨⟨1, Outcome.throwsOther⟩, 5⟩) ≠ Outcome.returns ∧
    (EventLoop.step ⟨[⟨⟨1, Outcome.throwsOther⟩, 5⟩, ⟨⟨2, Outcome.returns⟩, 9⟩], true⟩ 7).1
      = ⟨[⟨⟨2, Outcome.returns⟩, 9⟩], true⟩ ∧
    (EventLoop.step ⟨[⟨⟨1, Outcome.throwsOther⟩, 5⟩, ⟨⟨2, Outcome.returns⟩, 9⟩], true⟩ 7).1.running
      = true :=
  ⟨rfl, rfl, by decide, by decide, by decide,
   (failing_action_is_caught
      ⟨[⟨⟨1, Outcome.throwsOther⟩, 5⟩, ⟨⟨2, Outcome.returns⟩, 9⟩], true⟩ 7
      ⟨⟨1, Outcome.throwsOther⟩, 5⟩ rfl rfl (by decide) (by decide)).1⟩

/-- C13: over every interleaving of calls and loop passes on a fresh task manager, the calls of
a task and its entries still queued add up to the entries registered for it, so it is called at
most once for each entry that `set_interval` or `set_timeout` inserted; a pass that calls a task
calls only that one and leaves the queue without exactly that entry. -/
theorem called_at_most_once (steps : List Step) (t : Task) :
    (invoked (TaskManager.new.exec steps).2).count t
        + (TaskManager.new.exec steps).1.event_loop.task_queue.count t
      = (registered steps).count t ∧
    (invoked (TaskManager.new.exec steps).2).count t ≤ (registered steps).count t ∧
    ∀ (el : EventLoop) (now : Int) (task : Task), Event.call task ∈ (el.step now).2 →
      invoked (el.step now).2 = [task] ∧
      el.task_queue.Perm (task :: (el.step now).1.task_queue) ∧
      (el.step now).1.task_queue.length + 1 = el.task_queue.length := by
  obtain ⟨_, _, hperm⟩ := tm_exec_spec steps TaskManager.new isHeap_nil
  have hq : TaskManager.new.event_loop.task_queue = [] := rfl
  rw [hq, List.append_nil] at hperm
  have hcount := hperm.count_eq t
  rw [List.count_append] at hcount
  refine ⟨hcount, by omega, ?_⟩
  intro el now task hcall
  obtain ⟨_, hp, _, hcalled⟩ := step_spec el now
  have hmem := mem_invoked.mpr hcall
  rcases hcalled with e | ⟨hd, e, _, _⟩
  · rw [e] at hmem; simp at hmem
  · rw [e] at hmem hp
    simp at hmem
    subst hmem
    refine ⟨e, hp.symm, ?_⟩
    have := hp.length_eq
    simp at this
    omega

/-! ## The claims on zero timeouts, the largest identifier, stopping and idling -/

theorem run_not_running : ∀ (clock : List Int) (el : EventLoop), el.running = false →
    el.run clock = (el, [])
  | [], _, _ => rfl
  | now :: clock, el, h => by
    have hstep : el.step now = (el, []) := by simp [EventLoop.step, h]
    rw [run_cons, hstep]
    simp [run_not_running clock el h]

/-- C14 fails on the code: `set_timeout(g, 0)` at clock reading 0 and then `set_timeout(f, 0)`
at clock reading 5 leave the task of `g`, due at 0, at the front of the queue, and the next
pass of the loop, at clock reading 5, calls `g` and not `f`. -/
theorem zero_timeout_behind_earlier_task :
    invoked (((TaskManager.new.set_timeout ⟨1, Outcome.returns⟩ 0 0).1.set_timeout
        ⟨2, Outcome.returns⟩ 0 5).1.iterate 5).2 = [⟨⟨1, Outcome.returns⟩, 0⟩] := by
  decide

/-- C14 as amended: in a state reached from a fresh task manager by calls and loop passes,
`set_timeout(f, 0)` at clock reading `now` calls nothing itself, and if every task already
queued is due after `now`, the next pass of the loop, at a clock reading `next` that is not
before `now`, calls `f` and nothing else. -/
theorem zero_timeout_called_next (steps : List Step) (func : Func) (now next : Int)
    (hlater : ∀ t ∈ (TaskManager.new.exec steps).1.event_loop.task_queue, now < t.time)
    (hclock : now ≤ next) :
    ((TaskManager.new.exec steps).1.set_timeout func 0 now).2 = [] ∧
    invoked (((TaskManager.new.exec steps).1.set_timeout func 0 now).1.iterate next).2
      = [⟨func, now + milliseconds 0⟩] := by
  obtain ⟨hheap, hrun, _⟩ := tm_exec_spec steps TaskManager.new isHeap_nil
  refine ⟨rfl, ?_⟩
  generalize (TaskManager.new.exec steps).1 = tm at hlater hheap hrun
  have hrun' : tm.event_loop.running = true := hrun
  have htime : now + milliseconds 0 = now := by simp [milliseconds]
  have hheap' := isHeap_push hheap ⟨func, now + milliseconds 0⟩
  have hperm := perm_push tm.event_loop.task_queue ⟨func, now + milliseconds 0⟩
  cases htop : top (push tm.event_loop.task_queue ⟨func, now + milliseconds 0⟩) with
  | none =>
    have := top_eq_none htop
    have hl := length_push tm.event_loop.task_queue ⟨func, now + milliseconds 0⟩
    rw [this] at hl
    simp at hl
  | some hd =>
    have hle : hd.time ≤ now + milliseconds 0 :=
      isHeap_top_le hheap' htop (hperm.symm.subset (List.mem_cons_self _ _))
    have hhd : hd = ⟨func, now + milliseconds 0⟩ := by
      rcases List.mem_cons.mp (hperm.subset (mem_of_top htop)) with e | hmem
      · exact e
      · have := hlater hd hmem
        omega
    subst hhd
    have hdue : now + milliseconds 0 ≤ next := by omega
    simp [TaskManager.iterate, TaskManager.set_timeout, EventLoop.add_task, EventLoop.step,
      hrun', EventLoop.iteration, htop, hdue, invoked_invoke]

/-- Witness of C14 as amended: one timeout of 100 ms is pending when `set_timeout(f, 0)` is
called at clock reading 5; the next pass of the loop is at clock reading 6. -/
theorem zero_timeout_called_next_witness :
    (∀ t ∈ (TaskManager.new.exec
        [Step.call (Call.set_timeout ⟨1, Outcome.returns⟩ 100 0)]).1.event_loop.task_queue,
      (5 : Int) < t.time) ∧
    (5 : Int) ≤ 6 ∧
    invoked (((TaskManager.new.exec
        [Step.call (Call.set_timeout ⟨1, Outcome.returns⟩ 100 0)]).1.set_timeout
          ⟨2, Outcome.returns⟩ 0 5).1.iterate 6).2
      = [⟨⟨2, Outcome.returns⟩, 5 + milliseconds 0⟩] :=
  ⟨by decide, by decide,
   (zero_timeout_called_next [Step.call (Call.set_timeout ⟨1, Outcome.returns⟩ 100 0)]
      ⟨2, Outcome.returns⟩ 5 6 (by decide) (by decide)).2⟩

/-- C15 fails on the code: after 2147483647 registrations on a fresh task manager, all of them
defined, `next_task_id` holds 2147483647; the next `set_interval(f, 50)` runs
`int task_id = next_task_id++` with no check before it, so the increment overflows and the call
is undefined instead of reporting a failure to its caller. -/
theorem set_interval_overflows_at_largest_identifier :
    TaskManager.new.perform_checked
        (List.replicate 2147483647 (Call.set_interval ⟨0, Outcome.returns⟩ 0 0))
      ≠ Execution.undefined ∧
    (TaskManager.new.perform
        (List.replicate 2147483647 (Call.set_interval ⟨0, Outcome.returns⟩ 0 0))).1.next_task_id
      = 2147483647 ∧
    (TaskManager.new.perform
        (List.replicate 2147483647 (Call.set_interval ⟨0, Outcome.returns⟩ 0 0))).1.set_interval_checked
        ⟨1, Outcome.returns⟩ 50 0
      = Execution.undefined := by
  have hnext : (TaskManager.new.perform
      (List.replicate 2147483647 (Call.set_interval ⟨0, Outcome.returns⟩ 0 0))).1.next_task_id
      = 2147483647 := by
    have := (perform_keys (List.replicate 2147483647 (Call.set_interval ⟨0, Outcome.returns⟩ 0 0))
      TaskManager.new 0 rfl (by rw [registrations_replicate])
      (fun e he => by simp [TaskManager.new] at he)).1
    rw [this, registrations_replicate]
    rfl
  refine ⟨?_, hnext, ?_⟩
  · rw [perform_checked_eq _ TaskManager.new 0 rfl (by omega), registrations_replicate,
      if_pos (by omega)]
    exact fun e => Execution.noConfusion e
  · simp only [TaskManager.set_interval_checked, hnext]
    rw [if_neg (by omega)]

/-- C16: `stop()` sets `running` to false and leaves the queue as it is; from then on a pass
through `while (running)` does nothing, so `run()` pops and calls no task whatever the queue
holds and whatever the clock reads. -/
theorem stop_ends_the_loop (el : EventLoop) (now : Int) (clock : List Int) :
    el.stop.task_queue = el.task_queue ∧
    el.stop.running = false ∧
    el.stop.step now = (el.stop, []) ∧
    el.stop.run clock = (el.stop, []) ∧
    invoked (el.stop.run clock).2 = [] ∧
    (el.stop.run clock).1.task_queue = el.task_queue := by
  have hrun := run_not_running clock el.stop rfl
  refine ⟨rfl, rfl, rfl, hrun, ?_, ?_⟩
  · rw [hrun]; rfl
  · rw [hrun]; rfl

/-- C17: an iteration that calls no task leaves the event loop as it is and asks for one sleep
of positive length: 100 ms when the queue is empty, and the time left until the front task is
due otherwise. -/
theorem idle_iteration_sleeps (el : EventLoop) (now : Int)
    (h : invoked (el.iteration now).2 = []) :
    (el.iteration now).1 = el ∧
    ((el.task_queue = [] ∧ (el.iteration now).2 = [Event.sleep_for (milliseconds 100)]) ∨
      (∃ hd, top el.task_queue = some hd ∧ now < hd.time ∧
        (el.iteration now).2 = [Event.sleep_for (hd.time - now)])) ∧
    ∃ d, (el.iteration now).2 = [Event.sleep_for d] ∧ 0 < d := by
  rcases iteration_cases el now with ⟨hq, e⟩ | ⟨hd, _, _, e⟩ | ⟨hd, htop, hlt, e⟩
  · rw [e]
    exact ⟨rfl, Or.inl ⟨hq, rfl⟩, _, rfl, by decide⟩
  · rw [e, invoked_invoke] at h
    simp at h
  · rw [e]
    exact ⟨rfl, Or.inr ⟨hd, htop, hlt, rfl⟩, _, rfl, by omega⟩

/-- Witness of C17: the only task is due at 9 and the clock reads 7. -/
theorem idle_iteration_sleeps_witness :
    invoked (EventLoop.iteration ⟨[⟨⟨1, Outcome.returns⟩, 9⟩], true⟩ 7).2 = [] ∧
    (EventLoop.iteration ⟨[⟨⟨1, Outcome.returns⟩, 9⟩], true⟩ 7).1
      = ⟨[⟨⟨1, Outcome.returns⟩, 9⟩], true⟩ :=
  ⟨by decide, (idle_iteration_sleeps ⟨[⟨⟨1, Outcome.returns⟩, 9⟩], true⟩ 7 (by decide)).1⟩

/-! ## The claims on due tasks and on the keys of the registry -/

/-- C18: with `running` true and a queue that `add_task` and `pop` can produce, a pass of the
loop calls a task if and only if some queued task is due at the clock reading; the task called
is then the front of the queue, so no due task waits behind one that is not yet due. -/
theorem calls_iff_some_task_due (el : EventLoop) (now : Int)
    (hq : Reachable el.task_queue) (hrun : el.running = true) :
    ((∃ t, Event.call t ∈ (el.step now).2) ↔ ∃ t ∈ el.task_queue, t.time ≤ now) ∧
    ((∃ t ∈ el.task_queue, t.time ≤ now) →
      ∃ hd, top el.task_queue = some hd ∧ invoked (el.step now).2 = [hd]) := by
  have hheap := reachable_isHeap hq
  have hstep : el.step now = el.iteration now := by simp [EventLoop.step, hrun]
  rw [hstep]
  rcases iteration_cases el now with ⟨hempty, e⟩ | ⟨hd, htop, hdue, e⟩ | ⟨hd, htop, hlt, e⟩
  · rw [e, hempty]
    simp
  · rw [e, invoked_invoke]
    refine ⟨⟨fun _ => ⟨hd, mem_of_top htop, hdue⟩, fun _ => ⟨hd, ?_⟩⟩, fun _ => ⟨hd, htop, rfl⟩⟩
    rw [← mem_invoked, invoked_invoke]
    exact List.mem_singleton_self _
  · rw [e]
    have hnone : ¬ ∃ t ∈ el.task_queue, t.time ≤ now := by
      rintro ⟨t, ht, hle⟩
      have := isHeap_top_le hheap htop ht
      omega
    refine ⟨⟨?_, fun h => absurd h hnone⟩, fun h => absurd h hnone⟩
    rintro ⟨t, ht⟩
    simp at ht

/-- Witness of C18: tasks due at 30 and at 10 were added in that order; the clock reads 15. -/
theorem calls_iff_some_task_due_witness :
    Reachable (EventLoop.task_queue
      ⟨push (push [] ⟨⟨1, Outcome.returns⟩, 30⟩) ⟨⟨2, Outcome.returns⟩, 10⟩, true⟩) ∧
    EventLoop.running
      ⟨push (push [] ⟨⟨1, Outcome.returns⟩, 30⟩) ⟨⟨2, Outcome.returns⟩, 10⟩, true⟩ = true ∧
    ((∃ t, Event.call t ∈ (EventLoop.step
        ⟨push (push [] ⟨⟨1, Outcome.returns⟩, 30⟩) ⟨⟨2, Outcome.returns⟩, 10⟩, true⟩ 15).2) ↔
      ∃ t ∈ EventLoop.task_queue
        ⟨push (push [] ⟨⟨1, Outcome.returns⟩, 30⟩) ⟨⟨2, Outcome.returns⟩, 10⟩, true⟩,
        t.time ≤ 15) :=
  ⟨Reachable.add_task _ (Reachable.add_task _ Reachable.empty), rfl,
   (calls_iff_some_task_due
      ⟨push (push [] ⟨⟨1, Outcome.returns⟩, 30⟩) ⟨⟨2, Outcome.returns⟩, 10⟩, true⟩ 15
      (Reachable.add_task _ (Reachable.add_task _ Reachable.empty)) rfl).1⟩

/-- C19: after any sequence of `set_interval`, `set_timeout` and `clear_interval` calls on a
fresh task manager with at most 2147483647 registrations (the counter has not overflowed),
`next_task_id` is the number of registrations and every key of the registry lies in
`0 ≤ key < next_task_id`; so `next_task_id` has no registry entry, and storing a task under it
adds an entry without replacing one. -/
theorem registry_keys_below_counter (calls : List Call)
    (h : registrations calls ≤ 2147483647) :
    (TaskManager.new.perform calls).1.next_task_id = (registrations calls : Int) ∧
    (∀ key task, (key, task) ∈ (TaskManager.new.perform calls).1.recurring_tasks →
      0 ≤ key ∧ key < (TaskManager.new.perform calls).1.next_task_id) ∧
    Registry.find (TaskManager.new.perform calls).1.recurring_tasks
      (TaskManager.new.perform calls).1.next_task_id = none ∧
    ∀ task, Registry.assign (TaskManager.new.perform calls).1.recurring_tasks
        (TaskManager.new.perform calls).1.next_task_id task
      = ((TaskManager.new.perform calls).1.next_task_id, task)
          :: (TaskManager.new.perform calls).1.recurring_tasks := by
  obtain ⟨hnext, hkeys⟩ := perform_keys calls TaskManager.new 0 rfl (by omega)
    (fun e he => by simp [TaskManager.new] at he)
  rw [Nat.zero_add] at hnext hkeys
  have hnone : Registry.find (TaskManager.new.perform calls).1.recurring_tasks
      (TaskManager.new.perform calls).1.next_task_id = none := by
    apply find_none_of_keys_ne
    intro e he
    have := (hkeys e he).2
    rw [hnext]
    omega
  refine ⟨hnext, ?_, hnone, ?_⟩
  · intro key task hmem
    have := hkeys (key, task) hmem
    rw [hnext]
    exact this
  · intro task
    unfold Registry.assign
    rw [erase_of_find_none _ _ hnone]

/-- Witness of C19: two registrations with a cancellation in between. -/
theorem registry_keys_below_counter_witness :
    registrations
        [Call.set_interval ⟨7, Outcome.returns⟩ 50 0, Call.clear_interval 0,
          Call.set_interval ⟨9, Outcome.returns⟩ 20 5] ≤ 2147483647 ∧
    (TaskManager.new.perform
        [Call.set_interval ⟨7, Outcome.returns⟩ 50 0, Call.clear_interval 0,
          Call.set_interval ⟨9, Outcome.returns⟩ 20 5]).1.next_task_id
      = ((registrations
          [Call.set_interval ⟨7, Outcome.returns⟩ 50 0, Call.clear_interval 0,
            Call.set_interval ⟨9, Outcome.returns⟩ 20 5] : Nat) : Int) :=
  ⟨by decide,
   (registry_keys_below_counter
      [Call.set_interval ⟨7, Outcome.returns⟩ 50 0, Call.clear_interval 0,
        Call.set_interval ⟨9, Outcome.returns⟩ 20 5] (by decide)).1⟩

end Interval
